import Mathlib

/-!
Verification of the InstagramDMAutomation server core (`src/unnamed/part_000`,
an Express server driving a sequential Instagram DM outreach job, plus its
React client `src/src/App.tsx`).

The development is a shallow embedding:
* `sanitizeMessage` embeds the server's `sanitizeMessage` text transform;
  each JavaScript `String.replace` with a global regex is embedded as a
  left-to-right scanner (fuel-based so that concrete inputs evaluate by
  `decide`), with the regex's greedy/backtracking behaviour reproduced.
* `proxyNext` embeds the round-robin proxy rotation of the background loop.
* `Step` is a small-step transition system for the background dispatch loop,
  with one transition per suspension point (the three awaited network calls
  and the 1-second wait ticks), so that concurrent `stop`/`status` requests
  interleave exactly at the points where the Node.js event loop allows them.
-/

/-! ## Characters: the JavaScript whitespace class and the stripped classes -/

/-- The character class matched by `\s` in a JavaScript regex (and removed by
`String.prototype.trim`): ASCII whitespace, NBSP, the Unicode `Zs` spaces,
LS, PS and ZWNBSP. -/
def isJsWs (c : Char) : Bool :=
  c == '\t' || c == '\n' || c == '\x0B' || c == '\x0C' || c == '\r' || c == ' ' ||
  c == '\u00A0' || c == '\u1680' || ('\u2000' ≤ c && c ≤ '\u200A') ||
  c == '\u2028' || c == '\u2029' || c == '\u202F' || c == '\u205F' ||
  c == '\u3000' || c == '\uFEFF'

/-- The backtick character (code 96), written by code to keep it out of the
Lean source text. -/
def backtickChar : Char := Char.ofNat 96

/-- The apostrophe character, written via its code point. -/
def quoteChar : Char := Char.ofNat 39

/-- Characters removed by the pass `out.replace(/[\*`_>#]/g, '')`. -/
def isMdChar (c : Char) : Bool :=
  c == '*' || c == backtickChar || c == '_' || c == '>' || c == '#'

/-- Characters removed by the pass `out.replace(/[\[\]<>]/g, '')`. -/
def isBrChar (c : Char) : Bool :=
  c == '[' || c == ']' || c == '<' || c == '>'

/-! ## JavaScript `trim` -/

/-- `String.prototype.trim`: drop leading and trailing `\s` characters. -/
def jsTrim (l : List Char) : List Char :=
  ((l.dropWhile isJsWs).reverse.dropWhile isJsWs).reverse

/-! ## Global literal replacement (the two bracket/brace placeholder passes)

`out.replace(/\[(?:Name|name|Your Name\/Brand|your name|brand|Brand)\]/g, fallback)`
and `out.replace(/\{(?:name|Name)\}/g, fallback)` are global replacements of a
finite alternation of literal strings.  A JavaScript global replace scans the
subject left to right, replaces each (leftmost, first-alternative) match and
resumes after the matched text; replacements are never rescanned. -/

/-- Try the literal alternatives in order at the head of `l`; on a match
return the remainder of `l` after the matched text. -/
def findMatch (pats : List (List Char)) (l : List Char) : Option (List Char) :=
  match pats with
  | [] => none
  | p :: ps =>
    if !p.isEmpty && p.isPrefixOf l then some (l.drop p.length)
    else findMatch ps l

/-- Fueled left-to-right global replacement of the literal alternatives
`pats` by `rep`.  With fuel ≥ length of the subject the fuel never runs out
(each step consumes at least one character). -/
def replaceAllF (pats : List (List Char)) (rep : List Char) (fuel : Nat) :
    List Char → List Char :=
  match fuel with
  | 0 => fun l => l
  | f + 1 => fun l =>
    match l with
    | [] => []
    | c :: cs =>
      match findMatch pats (c :: cs) with
      | some rest => rep ++ replaceAllF pats rep f rest
      | none => c :: replaceAllF pats rep f cs

/-- Global replacement of literal alternatives with the replacement text
spliced literally.  A JavaScript `String.replace` additionally expands the
`$`-substitution patterns of the replacement string; `replaceAllJs` below
models that, and the two agree whenever the replacement contains no dollar
sign (`replaceAllJs_eq_of_no_dollar`). -/
def replaceAll (pats : List (List Char)) (rep : List Char) (l : List Char) :
    List Char :=
  replaceAllF pats rep l.length l

/-- Whether the literal alternation `pats` matches anywhere in `l`. -/
def hasMatch (pats : List (List Char)) : List Char → Bool
  | [] => false
  | c :: cs => (findMatch pats (c :: cs)).isSome || hasMatch pats cs

/-- The alternatives of `/\[(?:Name|name|Your Name\/Brand|your name|brand|Brand)\]/g`
(case-sensitive, exactly as written in the source). -/
def ph1Pats : List (List Char) :=
  ["[Name]".data, "[name]".data, "[Your Name/Brand]".data, "[your name]".data,
   "[brand]".data, "[Brand]".data]

/-- The alternatives of `/\{(?:name|Name)\}/g` (case-sensitive). -/
def ph2Pats : List (List Char) :=
  ["{name}".data, "{Name}".data]

/-! ## The angle-bracket placeholder pass `/<\s*name\s*>/gi` -/

/-- Case-insensitive comparison against one ASCII letter, as the `i` flag
canonicalizes ASCII letters. -/
def eqCI (lower upper c : Char) : Bool := c == lower || c == upper

/-- Match `/<\s*name\s*>/i` at the head of `l`; on success return the
remainder after the match.  `\s*` is greedy, but since `n` and `>` are not
whitespace the greedy run is exactly the maximal whitespace run. -/
def angleMatch (l : List Char) : Option (List Char) :=
  match l with
  | [] => none
  | c0 :: rest =>
    if c0 == '<' then
      match rest.dropWhile isJsWs with
      | a :: b :: c :: d :: r2 =>
        if eqCI 'n' 'N' a && eqCI 'a' 'A' b && eqCI 'm' 'M' c && eqCI 'e' 'E' d then
          match r2.dropWhile isJsWs with
          | e :: r3 => if e == '>' then some r3 else none
          | [] => none
        else none
      | _ => none
    else none

/-- Fueled global replacement for `/<\s*name\s*>/gi`. -/
def angleReplaceF (rep : List Char) (fuel : Nat) : List Char → List Char :=
  match fuel with
  | 0 => fun l => l
  | f + 1 => fun l =>
    match l with
    | [] => []
    | c :: cs =>
      match angleMatch (c :: cs) with
      | some rest => rep ++ angleReplaceF rep f rest
      | none => c :: angleReplaceF rep f cs

/-- `out.replace(/<\s*name\s*>/gi, fallback)` with the replacement spliced
literally; `angleReplaceJs` below adds the JavaScript `$`-substitution, and
the two agree for a dollar-free replacement. -/
def angleReplace (rep : List Char) (l : List Char) : List Char :=
  angleReplaceF rep l.length l

/-! ## The whitespace collapsing passes -/

/-- Index of the last line feed in `l`, if any. -/
def lastNlIdx : List Char → Option Nat
  | [] => none
  | c :: cs =>
    match lastNlIdx cs with
    | some k => some (k + 1)
    | none => if c == '\n' then some 0 else none

/-- Match `/\s+\n/` at the head of `l` with JavaScript greedy backtracking:
`\s+` grabs the maximal whitespace run, then backtracks until the next
character is a line feed, so the match extends to the last line feed of the
run, which must sit at index ≥ 1.  Returns the remainder after the match. -/
def wsNlMatch (l : List Char) : Option (List Char) :=
  match lastNlIdx (l.takeWhile isJsWs) with
  | some k => if 1 ≤ k then some (l.drop (k + 1)) else none
  | none => none

/-- Fueled global replacement for `out.replace(/\s+\n/g, '\n')`. -/
def collapseWsNlF (fuel : Nat) : List Char → List Char :=
  match fuel with
  | 0 => fun l => l
  | f + 1 => fun l =>
    match l with
    | [] => []
    | c :: cs =>
      match wsNlMatch (c :: cs) with
      | some rest => '\n' :: collapseWsNlF f rest
      | none => c :: collapseWsNlF f cs

/-- `out.replace(/\s+\n/g, '\n')`. -/
def collapseWsNl (l : List Char) : List Char :=
  collapseWsNlF l.length l

/-- Fueled global replacement for `out.replace(/\n{3,}/g, '\n\n')`: a greedy
run of at least three line feeds becomes exactly two. -/
def collapseNl3F (fuel : Nat) : List Char → List Char :=
  match fuel with
  | 0 => fun l => l
  | f + 1 => fun l =>
    match l with
    | [] => []
    | c :: cs =>
      if c == '\n' && decide (2 ≤ (cs.takeWhile (fun d => d == '\n')).length) then
        '\n' :: '\n' :: collapseNl3F f (cs.dropWhile (fun d => d == '\n'))
      else c :: collapseNl3F f cs

/-- `out.replace(/\n{3,}/g, '\n\n')`. -/
def collapseNl3 (l : List Char) : List Char :=
  collapseNl3F l.length l

/-- Head-is-whitespace test. -/
def headWs : List Char → Bool
  | [] => false
  | c :: _ => isJsWs c

/-- Fueled global replacement for `out.replace(/\s{2,}/g, ' ')`: a greedy
maximal whitespace run of length at least two becomes a single space. -/
def collapseWs2F (fuel : Nat) : List Char → List Char :=
  match fuel with
  | 0 => fun l => l
  | f + 1 => fun l =>
    match l with
    | [] => []
    | c :: cs =>
      if isJsWs c && headWs cs then
        ' ' :: collapseWs2F f (cs.dropWhile isJsWs)
      else c :: collapseWs2F f cs

/-- `out.replace(/\s{2,}/g, ' ')`. -/
def collapseWs2 (l : List Char) : List Char :=
  collapseWs2F l.length l

/-! ## The sanitizer -/

/-- Embedding of the server's `sanitizeMessage(msg, name, username)`:
trim, replace the three placeholder regexes by `fallback = name || username`,
strip markdown characters, strip leftover square/angle brackets, collapse
whitespace, trim again.  The replacement text is spliced literally here;
`sanitizeMessageJs` below refines the replacement passes with the JavaScript
`$`-substitution, and the two sanitizers agree whenever the fallback contains
no dollar sign (`sanitizeMessageJs_eq_sanitizeMessage`). -/
def sanitizeMessage (msg name username : List Char) : List Char :=
  let fallback := if name.isEmpty then username else name
  let s0 := jsTrim msg
  let s1 := replaceAll ph1Pats fallback s0
  let s2 := replaceAll ph2Pats fallback s1
  let s3 := angleReplace fallback s2
  let s4 := s3.filter (fun c => !isMdChar c)
  let s5 := s4.filter (fun c => !isBrChar c)
  let s6 := collapseWs2 (collapseNl3 (collapseWsNl s5))
  jsTrim s6

/-! ## The replacement passes with JavaScript `$`-substitution

A JavaScript `String.replace` with a string replacement applies
`GetSubstitution` to the replacement template for each match: `$$` yields a
dollar sign, `$&` the matched text, a dollar followed by a backquote the
portion of the subject string before the match, `$'` the portion after the
match.  The three sanitizer regexes have no capture groups and no named
groups, so `$1`..`$9` and `$<` are literal text, and any other dollar is
literal as well. -/

/-- Fueled `GetSubstitution` scan of the replacement template: `matched` is
the matched text, `before` the portion of the whole subject string preceding
the match, `after` the portion following it.  Each step consumes at least
one character, so fuel ≥ length of the template never runs out. -/
def expandReplF (matched before after : List Char) (fuel : Nat) :
    List Char → List Char :=
  match fuel with
  | 0 => fun l => l
  | f + 1 => fun l =>
    match l with
    | [] => []
    | c :: t =>
      if c = '$' then
        match t with
        | [] => ['$']
        | d :: u =>
          if d = '$' then '$' :: expandReplF matched before after f u
          else if d = '&' then matched ++ expandReplF matched before after f u
          else if d = backtickChar then
            before ++ expandReplF matched before after f u
          else if d = quoteChar then
            after ++ expandReplF matched before after f u
          else '$' :: expandReplF matched before after f (d :: u)
      else c :: expandReplF matched before after f t

/-- `GetSubstitution` applied to the replacement template. -/
def expandRepl (matched before after rep : List Char) : List Char :=
  expandReplF matched before after rep.length rep

/-- Fueled left-to-right global replacement of the literal alternatives
`pats` by the template `rep` with `$`-substitution: `orig` is the whole
subject string and `pos` the number of its characters already consumed, so
the text before a match is `orig.take pos` and the text after it is the
unconsumed remainder. -/
def replaceAllJsF (pats : List (List Char)) (rep orig : List Char)
    (fuel : Nat) : Nat → List Char → List Char :=
  match fuel with
  | 0 => fun _ l => l
  | f + 1 => fun pos l =>
    match l with
    | [] => []
    | c :: cs =>
      match findMatch pats (c :: cs) with
      | some rest =>
          expandRepl ((c :: cs).take ((c :: cs).length - rest.length))
              (orig.take pos) rest rep ++
            replaceAllJsF pats rep orig f
              (pos + ((c :: cs).length - rest.length)) rest
      | none => c :: replaceAllJsF pats rep orig f (pos + 1) cs

/-- Global replacement of literal alternatives with `$`-substitution, as in
a JavaScript `String.replace` with a string replacement. -/
def replaceAllJs (pats : List (List Char)) (rep l : List Char) : List Char :=
  replaceAllJsF pats rep l l.length 0 l

/-- Fueled global replacement for `/<\s*name\s*>/gi` with `$`-substitution;
the matched text is the consumed prefix of the subject. -/
def angleReplaceJsF (rep orig : List Char) (fuel : Nat) :
    Nat → List Char → List Char :=
  match fuel with
  | 0 => fun _ l => l
  | f + 1 => fun pos l =>
    match l with
    | [] => []
    | c :: cs =>
      match angleMatch (c :: cs) with
      | some rest =>
          expandRepl ((c :: cs).take ((c :: cs).length - rest.length))
              (orig.take pos) rest rep ++
            angleReplaceJsF rep orig f
              (pos + ((c :: cs).length - rest.length)) rest
      | none => c :: angleReplaceJsF rep orig f (pos + 1) cs

/-- `out.replace(/<\s*name\s*>/gi, fallback)` with `$`-substitution. -/
def angleReplaceJs (rep l : List Char) : List Char :=
  angleReplaceJsF rep l l.length 0 l

/-- The sanitizer with the three replacement passes carrying the JavaScript
`$`-substitution of the fallback; identical to `sanitizeMessage` otherwise. -/
def sanitizeMessageJs (msg name username : List Char) : List Char :=
  let fallback := if name.isEmpty then username else name
  let s0 := jsTrim msg
  let s1 := replaceAllJs ph1Pats fallback s0
  let s2 := replaceAllJs ph2Pats fallback s1
  let s3 := angleReplaceJs fallback s2
  let s4 := s3.filter (fun c => !isMdChar c)
  let s5 := s4.filter (fun c => !isBrChar c)
  let s6 := collapseWs2 (collapseNl3 (collapseWsNl s5))
  jsTrim s6

/-! ## No adjacent whitespace in sanitized output -/

/-- Two adjacent characters are acceptable unless both are whitespace. -/
def wsAdj (a b : Char) : Prop := ¬(isJsWs a = true ∧ isJsWs b = true)

/-- The list contains no two adjacent whitespace characters. -/
def NoWsPair (l : List Char) : Prop := l.Chain' wsAdj

/-! ## The job state and the background dispatch loop

The server keeps one in-memory `JobState` record; `/api/start` validates the
request, logs in, re-initializes the record and launches the background loop;
`/api/status` reads the record.  The loop is embedded as a small-step
transition system with one suspension point per awaited operation (the three
network calls `searchExact`, `openrouterGenerate`, `broadcastText`, and each
1-second `delay` of the countdown), since in Node.js a concurrent request
handler can only run while the loop task is suspended at an `await`. -/

/-- The in-memory `JobState` record of the server. -/
structure Js where
  running : Bool
  igUser : Option String
  total : Nat
  index : Nat
  sent : Nat
  failed : Nat
  currentUsername : Option String
  currentProxy : Option String
  userAgent : Option String
  nextSendAt : Option Nat
  lastError : Option String
  lastStep : Option String
deriving DecidableEq

/-- The idle state the server boots with (`let state = { running: false, ... }`). -/
def initialState : Js :=
  { running := false, igUser := none, total := 0, index := 0, sent := 0,
    failed := 0, currentUsername := none, currentProxy := none,
    userAgent := none, nextSendAt := none, lastError := none, lastStep := none }

/-- Round-robin proxy selection, embedding the per-send rotation of the loop:
with a non-empty validated list the current cursor picks
`proxyList[proxyIndex % proxyList.length]` and the cursor advances; with an
empty list no proxy is used and the cursor is untouched. -/
def proxyNext (proxyList : List String) (proxyIndex : Nat) :
    Option String × Nat :=
  if 0 < proxyList.length then
    (proxyList.get? (proxyIndex % proxyList.length), proxyIndex + 1)
  else (none, proxyIndex)

/-- Iterated proxy selection: the outputs of `count` successive rotations. -/
def proxyRun (proxyList : List String) (proxyIndex : Nat) :
    Nat → List (Option String)
  | 0 => []
  | k + 1 =>
    (proxyNext proxyList proxyIndex).1 ::
      proxyRun proxyList (proxyNext proxyList proxyIndex).2 k

/-- Modelled from the spec: the repository's client (`src/src/App.tsx`) posts
to `/api/stop`, but the server source contains no such route; per the spec,
stop "sets `running=false` if a job is active; idempotent".  Setting the flag
unconditionally realises both clauses, since a stop on an idle job rewrites
`running` with the value it already has. -/
def stopJs (s : Js) : Js := { s with running := false }

/-- `secondsRemaining` as computed by `/api/status`:
`max(ceil((nextSendAt - now)/1000), 0)` when `nextSendAt` is set, else 0. -/
def secondsRemainingOf (now : Nat) (s : Js) : Nat :=
  match s.nextSendAt with
  | some t => (t - now + 999) / 1000
  | none => 0

/-- JavaScript `x || null` on an optional number: 0 is falsy. -/
def orNullNat : Option Nat → Option Nat
  | some t => if t = 0 then none else some t
  | none => none

/-- JavaScript `x || null` on an optional string: the empty string is falsy. -/
def orNullStr : Option String → Option String
  | some e => if e = "" then none else some e
  | none => none

/-- The response body of `/api/status`. -/
structure StatusView where
  running : Bool
  igUser : Option String
  total : Nat
  index : Nat
  sent : Nat
  failed : Nat
  currentUsername : Option String
  currentProxy : Option String
  userAgent : Option String
  secondsRemaining : Nat
  nextSendAt : Option Nat
  lastError : Option String
  lastStep : Option String
deriving DecidableEq

/-- The `/api/status` handler: a read-only snapshot of the job state. -/
def statusOf (now : Nat) (s : Js) : StatusView :=
  { running := s.running, igUser := s.igUser, total := s.total,
    index := s.index, sent := s.sent, failed := s.failed,
    currentUsername := s.currentUsername, currentProxy := s.currentProxy,
    userAgent := s.userAgent, secondsRemaining := secondsRemainingOf now s,
    nextSendAt := orNullNat s.nextSendAt, lastError := orNullStr s.lastError,
    lastStep := orNullStr s.lastStep }

/-- Program counter of the background loop task: the loop top for iteration
`i`, the three awaited stages of the dispatch of recipient `i`, the countdown
wait after recipient `i`, and loop exit (after the `finally` block ran). -/
inductive Pc where
  | loopTop (i : Nat)
  | resolve (i : Nat)
  | generate (i : Nat)
  | send (i : Nat)
  | waiting (i : Nat)
  | done
deriving DecidableEq

/-- A configuration of the background task: its program counter, the local
`proxyIndex` cursor, and the shared job state. -/
structure Config where
  pc : Pc
  proxyIndex : Nat
  js : Js
deriving DecidableEq

/-- Environment of one job: the recipient list (as a count plus an indexing
function), the validated proxy list, the wall-clock targets computed by the
pacing policy for each inter-send wait, and the outcome of each network call
(`none` = success, `some e` = the call throws with message `e`). -/
structure LoopEnv where
  total : Nat
  uname : Nat → String
  proxyList : List String
  target : Nat → Nat
  resolveErr : Nat → Option String
  genErr : Nat → Option String
  sendErr : Nat → Option String

/-- The job state created by `/api/start` after a successful login, just
before the background task is launched. -/
def startJs (E : LoopEnv) (igU : String) (ua : Option String) : Js :=
  { running := true, igUser := some igU, total := E.total, index := 0,
    sent := 0, failed := 0, currentUsername := none, currentProxy := none,
    userAgent := ua, nextSendAt := none, lastError := none,
    lastStep := some "login_success" }

/-- The initial configuration of the background task. -/
def initConfig (E : LoopEnv) (igU : String) (ua : Option String) : Config :=
  { pc := .loopTop 0, proxyIndex := 0, js := startJs E igU ua }

/-- The end of one iteration body: if more recipients remain, store the
pacing target in `nextSendAt` and enter the countdown; otherwise return to
the loop top with the next index (`if (i < usernames.length - 1) {...}`). -/
def paceStep (E : LoopEnv) (i : Nat) (c : Config) : Config :=
  if i + 1 < E.total then
    { c with pc := .waiting i, js := { c.js with nextSendAt := some (E.target i) } }
  else
    { c with pc := .loopTop (i + 1) }

/-- One suspension-to-suspension step of the system.  `allowStop` gates the
externally requested stop transition: with `allowStop = false` the relation
describes a run in which no stop request ever arrives. -/
inductive Step (E : LoopEnv) (allowStop : Bool) : Config → Config → Prop where
  | enter (c : Config) (i : Nat) :
      c.pc = .loopTop i → c.js.running = true → i < E.total →
      Step E allowStop c
        { pc := Pc.resolve i
          proxyIndex := (proxyNext E.proxyList c.proxyIndex).2
          js := { c.js with
                  index := i
                  currentUsername := some (E.uname i)
                  currentProxy := (proxyNext E.proxyList c.proxyIndex).1
                  lastStep := some "resolve_user_pk" } }
  | exitLoop (c : Config) (i : Nat) :
      c.pc = .loopTop i → (c.js.running = false ∨ E.total ≤ i) →
      Step E allowStop c
        { pc := Pc.done
          proxyIndex := c.proxyIndex
          js := { c.js with
                  running := false
                  currentUsername := none
                  nextSendAt := none } }
  | resolveOk (c : Config) (i : Nat) :
      c.pc = .resolve i → E.resolveErr i = none →
      Step E allowStop c
        { c with
          pc := Pc.generate i
          js := { c.js with lastStep := some "generate_message" } }
  | resolveFail (c : Config) (i : Nat) (e : String) :
      c.pc = .resolve i → E.resolveErr i = some e →
      Step E allowStop c
        (paceStep E i
          { c with js := { c.js with
                           failed := c.js.failed + 1
                           lastError := some e } })
  | genOk (c : Config) (i : Nat) :
      c.pc = .generate i → E.genErr i = none →
      Step E allowStop c
        { c with
          pc := Pc.send i
          js := { c.js with lastStep := some "send_dm" } }
  | genFail (c : Config) (i : Nat) (e : String) :
      c.pc = .generate i → E.genErr i = some e →
      Step E allowStop c
        (paceStep E i
          { c with js := { c.js with
                           failed := c.js.failed + 1
                           lastError := some e } })
  | sendOk (c : Config) (i : Nat) :
      c.pc = .send i → E.sendErr i = none →
      Step E allowStop c
        (paceStep E i
          { c with js := { c.js with
                           sent := c.js.sent + 1
                           lastError := none } })
  | sendFail (c : Config) (i : Nat) (e : String) :
      c.pc = .send i → E.sendErr i = some e →
      Step E allowStop c
        (paceStep E i
          { c with js := { c.js with
                           failed := c.js.failed + 1
                           lastError := some e } })
  | tick (c : Config) (i : Nat) :
      c.pc = .waiting i → c.js.running = true →
      Step E allowStop c c
  | waitExit (c : Config) (i : Nat) :
      c.pc = .waiting i →
      Step E allowStop c { c with pc := Pc.loopTop (i + 1) }
  | stopReq (c : Config) :
      allowStop = true →
      Step E allowStop c { c with js := stopJs c.js }

/-- Zero or more steps. -/
def Steps (E : LoopEnv) (allowStop : Bool) : Config → Config → Prop :=
  Relation.ReflTransGen (Step E allowStop)

/-- Reachability from the configuration created by a successful start. -/
def Reach (E : LoopEnv) (allowStop : Bool) (igU : String) (ua : Option String)
    (c : Config) : Prop :=
  Steps E allowStop (initConfig E igU ua) c

/-! ## The values the `lastStep` field can take -/

/-- The four values written to `lastStep` by the server: `login_success` on
start, then `resolve_user_pk`, `generate_message`, `send_dm` per stage. -/
def lastStepOk (s : Option String) : Prop :=
  s = some "login_success" ∨ s = some "resolve_user_pk" ∨
    s = some "generate_message" ∨ s = some "send_dm"

/-! ## Where `nextSendAt` is set: it is written before each countdown and
cleared only by the `finally` block at loop exit -/

/-- The value of `nextSendAt` when the loop task sits at the top of iteration
`j` (or in the dispatch stages of iteration `j`): `none` before the first
wait has ever been scheduled, and the stale target of the previous wait
afterwards. -/
def nsAt (E : LoopEnv) (j : Nat) : Option Nat :=
  if j = 0 then none
  else if j < E.total then some (E.target (j - 1))
  else if 2 ≤ E.total then some (E.target (E.total - 2)) else none

/-- The `nextSendAt` invariant, per program counter. -/
def nsInvAt (E : LoopEnv) : Pc → Option Nat → Prop
  | Pc.loopTop j, ns => ns = nsAt E j ∧ j ≤ E.total
  | Pc.resolve i, ns => ns = nsAt E i ∧ i < E.total
  | Pc.generate i, ns => ns = nsAt E i ∧ i < E.total
  | Pc.send i, ns => ns = nsAt E i ∧ i < E.total
  | Pc.waiting i, ns => ns = some (E.target i) ∧ i + 1 < E.total
  | Pc.done, ns => ns = none

/-- The `nextSendAt` invariant of a configuration. -/
def nsInv (E : LoopEnv) (c : Config) : Prop := nsInvAt E c.pc c.js.nextSendAt

/-! ## Counters, index and the running flag along an uncancelled run -/

/-- Per-program-counter invariant for sent/failed/index: each completed
iteration contributed exactly one increment, the index trails the loop
variable, and without a stop request the flag stays set until exit. -/
def countInvAt (E : LoopEnv) : Pc → Js → Prop
  | Pc.loopTop j, s =>
      s.running = true ∧ j ≤ E.total ∧ s.sent + s.failed = j ∧ s.index = j - 1
  | Pc.resolve i, s =>
      s.running = true ∧ i < E.total ∧ s.sent + s.failed = i ∧ s.index = i
  | Pc.generate i, s =>
      s.running = true ∧ i < E.total ∧ s.sent + s.failed = i ∧ s.index = i
  | Pc.send i, s =>
      s.running = true ∧ i < E.total ∧ s.sent + s.failed = i ∧ s.index = i
  | Pc.waiting i, s =>
      s.running = true ∧ i + 1 < E.total ∧ s.sent + s.failed = i + 1 ∧ s.index = i
  | Pc.done, s => s.sent + s.failed = E.total ∧ s.index = E.total - 1

/-- The counter invariant of a configuration (uncancelled machine). -/
def countInv (E : LoopEnv) (c : Config) : Prop := countInvAt E c.pc c.js

/-! ## After a stop is observed at an idle point, counters are frozen -/

/-- Program counters at which no dispatch is in flight: the loop top, the
countdown wait, and loop exit. -/
def idlePc : Pc → Prop
  | Pc.loopTop _ => True
  | Pc.resolve _ => False
  | Pc.generate _ => False
  | Pc.send _ => False
  | Pc.waiting _ => True
  | Pc.done => True

/-! ## Concrete jobs used as witnesses and counterexamples -/

/-- A one-recipient job in which every network call succeeds. -/
def envA : LoopEnv :=
  { total := 1, uname := fun _ => "alice", proxyList := [],
    target := fun _ => 1000, resolveErr := fun _ => none,
    genErr := fun _ => none, sendErr := fun _ => none }

/-- A two-recipient job in which every network call succeeds. -/
def envB : LoopEnv := { envA with total := 2 }

/-- The configuration of `envA` suspended at the resolve call of recipient 0. -/
def cfgResolveA : Config :=
  { pc := Pc.resolve 0, proxyIndex := 0,
    js := { running := true, igUser := some "u", total := 1, index := 0,
            sent := 0, failed := 0, currentUsername := some "alice",
            currentProxy := none, userAgent := none, nextSendAt := none,
            lastError := none, lastStep := some "resolve_user_pk" } }

/-- `cfgResolveA` after a stop request landed mid-dispatch. -/
def cfgStopped : Config := { cfgResolveA with js := stopJs cfgResolveA.js }

/-- The configuration reached when the dispatch in flight at `cfgStopped`
runs to completion: the loop is back at its top with `sent` incremented even
though `running` is already false. -/
def cfgRunOn : Config :=
  { pc := Pc.loopTop 1, proxyIndex := 0,
    js := { running := false, igUser := some "u", total := 1, index := 0,
            sent := 1, failed := 0, currentUsername := some "alice",
            currentProxy := none, userAgent := none, nextSendAt := none,
            lastError := none, lastStep := some "send_dm" } }

/-- The configuration of `envA` suspended at the send call of recipient 0. -/
def cfgSend : Config :=
  { pc := Pc.send 0, proxyIndex := 0,
    js := { running := true, igUser := some "u", total := 1, index := 0,
            sent := 0, failed := 0, currentUsername := some "alice",
            currentProxy := none, userAgent := none, nextSendAt := none,
            lastError := none, lastStep := some "send_dm" } }

/-- `cfgSend` after its send succeeds: back at the loop top, still running. -/
def cfgPaced : Config :=
  { pc := Pc.loopTop 1, proxyIndex := 0,
    js := { running := true, igUser := some "u", total := 1, index := 0,
            sent := 1, failed := 0, currentUsername := some "alice",
            currentProxy := none, userAgent := none, nextSendAt := none,
            lastError := none, lastStep := some "send_dm" } }

/-- The final configuration of an uncancelled run of `envA`. -/
def cfgDone : Config :=
  { pc := Pc.done, proxyIndex := 0,
    js := { running := false, igUser := some "u", total := 1, index := 0,
            sent := 1, failed := 0, currentUsername := none,
            currentProxy := none, userAgent := none, nextSendAt := none,
            lastError := none, lastStep := some "send_dm" } }

/-- The configuration of `envB` suspended at the resolve call of recipient 1:
a dispatch is in flight, yet `nextSendAt` still holds the previous wait's
target. -/
def cfgResolveB : Config :=
  { pc := Pc.resolve 1, proxyIndex := 0,
    js := { running := true, igUser := some "u", total := 2, index := 1,
            sent := 1, failed := 0, currentUsername := some "alice",
            currentProxy := none, userAgent := none, nextSendAt := some 1000,
            lastError := none, lastStep := some "resolve_user_pk" } }

/-! # Theorems -/

/-- Unfolding equation for `sanitizeMessage`: the chain of passes written out. -/
theorem sanitizeMessage_eq (msg name username : List Char) :
    sanitizeMessage msg name username
      = jsTrim (collapseWs2 (collapseNl3 (collapseWsNl
          (((angleReplace (if name.isEmpty then username else name)
              (replaceAll ph2Pats (if name.isEmpty then username else name)
                (replaceAll ph1Pats (if name.isEmpty then username else name)
                  (jsTrim msg)))).filter
            (fun c => !isMdChar c)).filter (fun c => !isBrChar c))))) := rfl

/-! ## One-step unfolding equations for the fueled scanners -/

theorem replaceAllF_cons_some {pats : List (List Char)} {rep : List Char}
    {f : Nat} {c : Char} {cs rest : List Char}
    (hm : findMatch pats (c :: cs) = some rest) :
    replaceAllF pats rep (f + 1) (c :: cs) = rep ++ replaceAllF pats rep f rest := by
  have h0 : replaceAllF pats rep (f + 1) (c :: cs)
      = match findMatch pats (c :: cs) with
        | some rest => rep ++ replaceAllF pats rep f rest
        | none => c :: replaceAllF pats rep f cs := rfl
  rw [h0, hm]

theorem replaceAllF_cons_none {pats : List (List Char)} {rep : List Char}
    {f : Nat} {c : Char} {cs : List Char}
    (hm : findMatch pats (c :: cs) = none) :
    replaceAllF pats rep (f + 1) (c :: cs) = c :: replaceAllF pats rep f cs := by
  have h0 : replaceAllF pats rep (f + 1) (c :: cs)
      = match findMatch pats (c :: cs) with
        | some rest => rep ++ replaceAllF pats rep f rest
        | none => c :: replaceAllF pats rep f cs := rfl
  rw [h0, hm]

theorem angleReplaceF_cons_some {rep : List Char} {f : Nat} {c : Char}
    {cs rest : List Char} (hm : angleMatch (c :: cs) = some rest) :
    angleReplaceF rep (f + 1) (c :: cs) = rep ++ angleReplaceF rep f rest := by
  have h0 : angleReplaceF rep (f + 1) (c :: cs)
      = match angleMatch (c :: cs) with
        | some rest => rep ++ angleReplaceF rep f rest
        | none => c :: angleReplaceF rep f cs := rfl
  rw [h0, hm]

theorem angleReplaceF_cons_none {rep : List Char} {f : Nat} {c : Char}
    {cs : List Char} (hm : angleMatch (c :: cs) = none) :
    angleReplaceF rep (f + 1) (c :: cs) = c :: angleReplaceF rep f cs := by
  have h0 : angleReplaceF rep (f + 1) (c :: cs)
      = match angleMatch (c :: cs) with
        | some rest => rep ++ angleReplaceF rep f rest
        | none => c :: angleReplaceF rep f cs := rfl
  rw [h0, hm]

theorem collapseWsNlF_cons_some {f : Nat} {c : Char} {cs rest : List Char}
    (hm : wsNlMatch (c :: cs) = some rest) :
    collapseWsNlF (f + 1) (c :: cs) = '\n' :: collapseWsNlF f rest := by
  have h0 : collapseWsNlF (f + 1) (c :: cs)
      = match wsNlMatch (c :: cs) with
        | some rest => '\n' :: collapseWsNlF f rest
        | none => c :: collapseWsNlF f cs := rfl
  rw [h0, hm]

theorem collapseWsNlF_cons_none {f : Nat} {c : Char} {cs : List Char}
    (hm : wsNlMatch (c :: cs) = none) :
    collapseWsNlF (f + 1) (c :: cs) = c :: collapseWsNlF f cs := by
  have h0 : collapseWsNlF (f + 1) (c :: cs)
      = match wsNlMatch (c :: cs) with
        | some rest => '\n' :: collapseWsNlF f rest
        | none => c :: collapseWsNlF f cs := rfl
  rw [h0, hm]

theorem collapseNl3F_cons_true {f : Nat} {c : Char} {cs : List Char}
    (hc : (c == '\n' && decide (2 ≤ (cs.takeWhile (fun d => d == '\n')).length)) = true) :
    collapseNl3F (f + 1) (c :: cs)
      = '\n' :: '\n' :: collapseNl3F f (cs.dropWhile (fun d => d == '\n')) := by
  have h0 : collapseNl3F (f + 1) (c :: cs)
      = if c == '\n' && decide (2 ≤ (cs.takeWhile (fun d => d == '\n')).length) then
          '\n' :: '\n' :: collapseNl3F f (cs.dropWhile (fun d => d == '\n'))
        else c :: collapseNl3F f cs := rfl
  rw [h0]
  exact if_pos hc

theorem collapseNl3F_cons_false {f : Nat} {c : Char} {cs : List Char}
    (hc : (c == '\n' && decide (2 ≤ (cs.takeWhile (fun d => d == '\n')).length)) = false) :
    collapseNl3F (f + 1) (c :: cs) = c :: collapseNl3F f cs := by
  have h0 : collapseNl3F (f + 1) (c :: cs)
      = if c == '\n' && decide (2 ≤ (cs.takeWhile (fun d => d == '\n')).length) then
          '\n' :: '\n' :: collapseNl3F f (cs.dropWhile (fun d => d == '\n'))
        else c :: collapseNl3F f cs := rfl
  rw [h0]
  exact if_neg (by simp [hc])

theorem collapseWs2F_cons_true {f : Nat} {c : Char} {cs : List Char}
    (hc : (isJsWs c && headWs cs) = true) :
    collapseWs2F (f + 1) (c :: cs) = ' ' :: collapseWs2F f (cs.dropWhile isJsWs) := by
  have h0 : collapseWs2F (f + 1) (c :: cs)
      = if isJsWs c && headWs cs then
          ' ' :: collapseWs2F f (cs.dropWhile isJsWs)
        else c :: collapseWs2F f cs := rfl
  rw [h0]
  exact if_pos hc

theorem collapseWs2F_cons_false {f : Nat} {c : Char} {cs : List Char}
    (hc : (isJsWs c && headWs cs) = false) :
    collapseWs2F (f + 1) (c :: cs) = c :: collapseWs2F f cs := by
  have h0 : collapseWs2F (f + 1) (c :: cs)
      = if isJsWs c && headWs cs then
          ' ' :: collapseWs2F f (cs.dropWhile isJsWs)
        else c :: collapseWs2F f cs := rfl
  rw [h0]
  exact if_neg (by simp [hc])

/-! ## The substitution-aware passes and their agreement with the literal
ones for a dollar-free replacement -/

theorem replaceAllJsF_cons_some {pats : List (List Char)} {rep orig : List Char}
    {f pos : Nat} {c : Char} {cs rest : List Char}
    (hm : findMatch pats (c :: cs) = some rest) :
    replaceAllJsF pats rep orig (f + 1) pos (c :: cs)
      = expandRepl ((c :: cs).take ((c :: cs).length - rest.length))
          (orig.take pos) rest rep ++
        replaceAllJsF pats rep orig f
          (pos + ((c :: cs).length - rest.length)) rest := by
  have h0 : replaceAllJsF pats rep orig (f + 1) pos (c :: cs)
      = match findMatch pats (c :: cs) with
        | some rest =>
            expandRepl ((c :: cs).take ((c :: cs).length - rest.length))
                (orig.take pos) rest rep ++
              replaceAllJsF pats rep orig f
                (pos + ((c :: cs).length - rest.length)) rest
        | none => c :: replaceAllJsF pats rep orig f (pos + 1) cs := rfl
  rw [h0, hm]

theorem replaceAllJsF_cons_none {pats : List (List Char)} {rep orig : List Char}
    {f pos : Nat} {c : Char} {cs : List Char}
    (hm : findMatch pats (c :: cs) = none) :
    replaceAllJsF pats rep orig (f + 1) pos (c :: cs)
      = c :: replaceAllJsF pats rep orig f (pos + 1) cs := by
  have h0 : replaceAllJsF pats rep orig (f + 1) pos (c :: cs)
      = match findMatch pats (c :: cs) with
        | some rest =>
            expandRepl ((c :: cs).take ((c :: cs).length - rest.length))
                (orig.take pos) rest rep ++
              replaceAllJsF pats rep orig f
                (pos + ((c :: cs).length - rest.length)) rest
        | none => c :: replaceAllJsF pats rep orig f (pos + 1) cs := rfl
  rw [h0, hm]

theorem angleReplaceJsF_cons_some {rep orig : List Char} {f pos : Nat}
    {c : Char} {cs rest : List Char} (hm : angleMatch (c :: cs) = some rest) :
    angleReplaceJsF rep orig (f + 1) pos (c :: cs)
      = expandRepl ((c :: cs).take ((c :: cs).length - rest.length))
          (orig.take pos) rest rep ++
        angleReplaceJsF rep orig f
          (pos + ((c :: cs).length - rest.length)) rest := by
  have h0 : angleReplaceJsF rep orig (f + 1) pos (c :: cs)
      = match angleMatch (c :: cs) with
        | some rest =>
            expandRepl ((c :: cs).take ((c :: cs).length - rest.length))
                (orig.take pos) rest rep ++
              angleReplaceJsF rep orig f
                (pos + ((c :: cs).length - rest.length)) rest
        | none => c :: angleReplaceJsF rep orig f (pos + 1) cs := rfl
  rw [h0, hm]

theorem angleReplaceJsF_cons_none {rep orig : List Char} {f pos : Nat}
    {c : Char} {cs : List Char} (hm : angleMatch (c :: cs) = none) :
    angleReplaceJsF rep orig (f + 1) pos (c :: cs)
      = c :: angleReplaceJsF rep orig f (pos + 1) cs := by
  have h0 : angleReplaceJsF rep orig (f + 1) pos (c :: cs)
      = match angleMatch (c :: cs) with
        | some rest =>
            expandRepl ((c :: cs).take ((c :: cs).length - rest.length))
                (orig.take pos) rest rep ++
              angleReplaceJsF rep orig f
                (pos + ((c :: cs).length - rest.length)) rest
        | none => c :: angleReplaceJsF rep orig f (pos + 1) cs := rfl
  rw [h0, hm]

theorem expandReplF_cons_not_dollar (m b a : List Char) (f : Nat) (c : Char)
    (t : List Char) (hc : ¬c = '$') :
    expandReplF m b a (f + 1) (c :: t) = c :: expandReplF m b a f t := by
  have h0 : expandReplF m b a (f + 1) (c :: t)
      = if c = '$' then
          (match t with
           | [] => ['$']
           | d :: u =>
             if d = '$' then '$' :: expandReplF m b a f u
             else if d = '&' then m ++ expandReplF m b a f u
             else if d = backtickChar then b ++ expandReplF m b a f u
             else if d = quoteChar then a ++ expandReplF m b a f u
             else '$' :: expandReplF m b a f (d :: u))
        else c :: expandReplF m b a f t := rfl
  rw [h0, if_neg hc]

theorem expandReplF_of_no_dollar (m b a : List Char) :
    ∀ (f : Nat) (l : List Char), '$' ∉ l → l.length ≤ f →
      expandReplF m b a f l = l := by
  intro f
  induction f with
  | zero => intro l h hl; rfl
  | succ f ih =>
    intro l h hl
    cases l with
    | nil => rfl
    | cons c t =>
      have hc : ¬c = '$' := fun e => h (List.mem_cons.mpr (Or.inl e.symm))
      have ht : '$' ∉ t := fun hm => h (List.mem_cons.mpr (Or.inr hm))
      rw [expandReplF_cons_not_dollar m b a f c t hc,
        ih t ht (Nat.le_of_succ_le_succ hl)]

theorem expandRepl_of_no_dollar (m b a : List Char) (rep : List Char)
    (h : '$' ∉ rep) : expandRepl m b a rep = rep :=
  expandReplF_of_no_dollar m b a rep.length rep h (Nat.le_refl _)

theorem replaceAllJsF_eq_of_no_dollar {pats : List (List Char)}
    {rep : List Char} (orig : List Char) (h : '$' ∉ rep) :
    ∀ (f pos : Nat) (l : List Char),
      replaceAllJsF pats rep orig f pos l = replaceAllF pats rep f l := by
  intro f
  induction f with
  | zero => intro pos l; rfl
  | succ f ih =>
    intro pos l
    cases l with
    | nil => rfl
    | cons c cs =>
      cases hm : findMatch pats (c :: cs) with
      | some rest =>
        rw [replaceAllJsF_cons_some hm, replaceAllF_cons_some hm,
          expandRepl_of_no_dollar _ _ _ rep h, ih]
      | none =>
        rw [replaceAllJsF_cons_none hm, replaceAllF_cons_none hm, ih]

theorem replaceAllJs_eq_of_no_dollar {pats : List (List Char)}
    {rep l : List Char} (h : '$' ∉ rep) :
    replaceAllJs pats rep l = replaceAll pats rep l :=
  replaceAllJsF_eq_of_no_dollar l h l.length 0 l

theorem angleReplaceJsF_eq_of_no_dollar {rep : List Char} (orig : List Char)
    (h : '$' ∉ rep) :
    ∀ (f pos : Nat) (l : List Char),
      angleReplaceJsF rep orig f pos l = angleReplaceF rep f l := by
  intro f
  induction f with
  | zero => intro pos l; rfl
  | succ f ih =>
    intro pos l
    cases l with
    | nil => rfl
    | cons c cs =>
      cases hm : angleMatch (c :: cs) with
      | some rest =>
        rw [angleReplaceJsF_cons_some hm, angleReplaceF_cons_some hm,
          expandRepl_of_no_dollar _ _ _ rep h, ih]
      | none =>
        rw [angleReplaceJsF_cons_none hm, angleReplaceF_cons_none hm, ih]

theorem angleReplaceJs_eq_of_no_dollar {rep l : List Char} (h : '$' ∉ rep) :
    angleReplaceJs rep l = angleReplace rep l :=
  angleReplaceJsF_eq_of_no_dollar l h l.length 0 l

/-- Unfolding equation for `sanitizeMessageJs`: the chain of passes written
out. -/
theorem sanitizeMessageJs_eq (msg name username : List Char) :
    sanitizeMessageJs msg name username
      = jsTrim (collapseWs2 (collapseNl3 (collapseWsNl
          (((angleReplaceJs (if name.isEmpty then username else name)
              (replaceAllJs ph2Pats (if name.isEmpty then username else name)
                (replaceAllJs ph1Pats (if name.isEmpty then username else name)
                  (jsTrim msg)))).filter
            (fun c => !isMdChar c)).filter (fun c => !isBrChar c))))) := rfl

/-- On a dollar-free fallback the substitution-aware sanitizer coincides
with the literal-splicing one. -/
theorem sanitizeMessageJs_eq_sanitizeMessage (msg name username : List Char)
    (hn : '$' ∉ name) (hu : '$' ∉ username) :
    sanitizeMessageJs msg name username = sanitizeMessage msg name username := by
  have hf : '$' ∉ (if name.isEmpty then username else name) := by
    cases hni : name.isEmpty with
    | false => simpa [hni] using hn
    | true => simpa [hni] using hu
  rw [sanitizeMessageJs_eq, replaceAllJs_eq_of_no_dollar hf,
    replaceAllJs_eq_of_no_dollar hf, angleReplaceJs_eq_of_no_dollar hf,
    ← sanitizeMessage_eq]

/-! ## Basic facts about the scanners -/

theorem isPrefixOf_cons_head {d : Char} {t l : List Char}
    (h : (d :: t).isPrefixOf l = true) : ∃ m, l = d :: m := by
  cases l with
  | nil => simp [List.isPrefixOf] at h
  | cons c m =>
    simp only [List.isPrefixOf, Bool.and_eq_true, beq_iff_eq] at h
    exact ⟨m, by rw [h.1]⟩

theorem findMatch_eq_drop {pats : List (List Char)} {l r : List Char}
    (h : findMatch pats l = some r) : ∃ k, r = l.drop k := by
  induction pats with
  | nil => simp [findMatch] at h
  | cons p ps ih =>
    simp only [findMatch] at h
    split at h
    · exact ⟨p.length, (Option.some.inj h).symm⟩
    · exact ih h

theorem mem_of_findMatch {pats : List (List Char)} {l r : List Char}
    (h : findMatch pats l = some r) : ∀ a ∈ r, a ∈ l := by
  obtain ⟨k, rfl⟩ := findMatch_eq_drop h
  exact fun a ha => List.drop_subset k l ha

theorem findMatch_none_of_head {d : Char} {pats : List (List Char)} {l : List Char}
    (hd : ∀ p ∈ pats, ∃ t, p = d :: t) (hne : d ∉ l) : findMatch pats l = none := by
  induction pats with
  | nil => rfl
  | cons p ps ih =>
    obtain ⟨t, rfl⟩ := hd p (List.mem_cons_self p ps)
    have hcond : (!(d :: t).isEmpty && (d :: t).isPrefixOf l) = false := by
      cases hp : (d :: t).isPrefixOf l with
      | false => simp [hp]
      | true =>
        obtain ⟨m, rfl⟩ := isPrefixOf_cons_head hp
        exact absurd (List.mem_cons_self d m) hne
    simp only [findMatch, hcond, Bool.false_eq_true, if_false]
    exact ih fun p hp => hd p (List.mem_cons_of_mem _ hp)

theorem hasMatch_false_of_head {d : Char} {pats : List (List Char)} {l : List Char}
    (hd : ∀ p ∈ pats, ∃ t, p = d :: t) (hne : d ∉ l) : hasMatch pats l = false := by
  induction l with
  | nil => rfl
  | cons c cs ih =>
    simp only [hasMatch, findMatch_none_of_head hd hne, Option.isSome_none,
      Bool.false_or]
    exact ih fun h => hne (List.mem_cons_of_mem _ h)

theorem replaceAllF_of_hasMatch_false {pats : List (List Char)} {rep : List Char} :
    ∀ (f : Nat) (l : List Char), hasMatch pats l = false → replaceAllF pats rep f l = l := by
  intro f
  induction f with
  | zero => intro l _; rfl
  | succ f ih =>
    intro l h
    cases l with
    | nil => rfl
    | cons c cs =>
      simp only [hasMatch, Bool.or_eq_false_iff] at h
      have h1 : findMatch pats (c :: cs) = none := by
        cases hm : findMatch pats (c :: cs) with
        | none => rfl
        | some r => rw [hm] at h; simp at h
      rw [replaceAllF_cons_none h1, ih cs h.2]

theorem replaceAll_of_hasMatch_false {pats : List (List Char)} {rep l : List Char}
    (h : hasMatch pats l = false) : replaceAll pats rep l = l :=
  replaceAllF_of_hasMatch_false l.length l h

theorem angleMatch_cons_of_ne {c : Char} {cs : List Char} (h : ¬c = '<') :
    angleMatch (c :: cs) = none := by
  simp only [angleMatch, beq_iff_eq, h, if_false]

theorem angleReplaceF_of_not_mem {rep : List Char} :
    ∀ (f : Nat) (l : List Char), '<' ∉ l → angleReplaceF rep f l = l := by
  intro f
  induction f with
  | zero => intro l _; rfl
  | succ f ih =>
    intro l h
    cases l with
    | nil => rfl
    | cons c cs =>
      have hc : ¬c = '<' := fun hc => h (hc ▸ List.mem_cons_self c cs)
      rw [angleReplaceF_cons_none (angleMatch_cons_of_ne hc),
        ih cs fun hm => h (List.mem_cons_of_mem _ hm)]

theorem angleReplace_of_not_mem {rep l : List Char} (h : '<' ∉ l) :
    angleReplace rep l = l :=
  angleReplaceF_of_not_mem l.length l h

/-! ## Membership facts: the passes only introduce a line feed or a space -/

theorem wsNlMatch_eq_drop {l r : List Char} (h : wsNlMatch l = some r) :
    ∃ k, r = l.drop k := by
  rcases hm : lastNlIdx (l.takeWhile isJsWs) with _ | k
  · simp only [wsNlMatch, hm] at h
    exact Option.noConfusion h
  · simp only [wsNlMatch, hm] at h
    split at h
    · exact ⟨k + 1, (Option.some.inj h).symm⟩
    · exact Option.noConfusion h

theorem mem_collapseWsNlF : ∀ (f : Nat) (l : List Char) (a : Char),
    a ∈ collapseWsNlF f l → a ∈ l ∨ a = '\n' := by
  intro f
  induction f with
  | zero => intro l a h; exact Or.inl h
  | succ f ih =>
    intro l a h
    cases l with
    | nil => exact Or.inl h
    | cons c cs =>
      rcases hm : wsNlMatch (c :: cs) with _ | rest
      · rw [collapseWsNlF_cons_none hm] at h
        rcases List.mem_cons.mp h with rfl | h2
        · exact Or.inl (List.mem_cons_self _ _)
        · rcases ih cs a h2 with h3 | h3
          · exact Or.inl (List.mem_cons_of_mem _ h3)
          · exact Or.inr h3
      · rw [collapseWsNlF_cons_some hm] at h
        rcases List.mem_cons.mp h with rfl | h2
        · exact Or.inr rfl
        · rcases ih rest a h2 with h3 | h3
          · obtain ⟨k, rfl⟩ := wsNlMatch_eq_drop hm
            exact Or.inl (List.drop_subset _ _ h3)
          · exact Or.inr h3

theorem mem_collapseNl3F : ∀ (f : Nat) (l : List Char) (a : Char),
    a ∈ collapseNl3F f l → a ∈ l ∨ a = '\n' := by
  intro f
  induction f with
  | zero => intro l a h; exact Or.inl h
  | succ f ih =>
    intro l a h
    cases l with
    | nil => exact Or.inl h
    | cons c cs =>
      cases hc : (c == '\n' && decide (2 ≤ (cs.takeWhile (fun d => d == '\n')).length)) with
      | true =>
        rw [collapseNl3F_cons_true hc] at h
        rcases List.mem_cons.mp h with rfl | h2
        · exact Or.inr rfl
        rcases List.mem_cons.mp h2 with rfl | h3
        · exact Or.inr rfl
        rcases ih _ a h3 with h4 | h4
        · exact Or.inl (List.mem_cons_of_mem _ (List.dropWhile_subset _ h4))
        · exact Or.inr h4
      | false =>
        rw [collapseNl3F_cons_false hc] at h
        rcases List.mem_cons.mp h with rfl | h2
        · exact Or.inl (List.mem_cons_self _ _)
        rcases ih cs a h2 with h3 | h3
        · exact Or.inl (List.mem_cons_of_mem _ h3)
        · exact Or.inr h3

theorem mem_collapseWs2F : ∀ (f : Nat) (l : List Char) (a : Char),
    a ∈ collapseWs2F f l → a ∈ l ∨ a = ' ' := by
  intro f
  induction f with
  | zero => intro l a h; exact Or.inl h
  | succ f ih =>
    intro l a h
    cases l with
    | nil => exact Or.inl h
    | cons c cs =>
      cases hc : (isJsWs c && headWs cs) with
      | true =>
        rw [collapseWs2F_cons_true hc] at h
        rcases List.mem_cons.mp h with rfl | h2
        · exact Or.inr rfl
        rcases ih _ a h2 with h3 | h3
        · exact Or.inl (List.mem_cons_of_mem _ (List.dropWhile_subset _ h3))
        · exact Or.inr h3
      | false =>
        rw [collapseWs2F_cons_false hc] at h
        rcases List.mem_cons.mp h with rfl | h2
        · exact Or.inl (List.mem_cons_self _ _)
        rcases ih cs a h2 with h3 | h3
        · exact Or.inl (List.mem_cons_of_mem _ h3)
        · exact Or.inr h3

theorem mem_jsTrim {l : List Char} {a : Char} (h : a ∈ jsTrim l) : a ∈ l := by
  unfold jsTrim at h
  rw [List.mem_reverse] at h
  have h2 := List.dropWhile_subset isJsWs h
  rw [List.mem_reverse] at h2
  exact List.dropWhile_subset isJsWs h2

/-- Every character of a sanitized message survives the two stripping filters:
it is neither a markdown character nor a leftover bracket character. -/
theorem sanitize_chars {msg name username : List Char} {a : Char}
    (h : a ∈ sanitizeMessage msg name username) :
    isMdChar a = false ∧ isBrChar a = false := by
  simp only [sanitizeMessage] at h
  have h1 := mem_jsTrim h
  rcases mem_collapseWs2F _ _ _ h1 with h2 | rfl
  · rcases mem_collapseNl3F _ _ _ h2 with h3 | rfl
    · rcases mem_collapseWsNlF _ _ _ h3 with h4 | rfl
      · rw [List.mem_filter] at h4
        obtain ⟨h5, hbr⟩ := h4
        rw [List.mem_filter] at h5
        obtain ⟨_, hmd⟩ := h5
        exact ⟨by simpa using hmd, by simpa using hbr⟩
      · exact ⟨by decide, by decide⟩
    · exact ⟨by decide, by decide⟩
  · exact ⟨by decide, by decide⟩

theorem dropWhile_head_not_ws : ∀ {l : List Char} {d : Char} {t : List Char},
    l.dropWhile isJsWs = d :: t → isJsWs d = false := by
  intro l
  induction l with
  | nil => intro d t h; simp at h
  | cons c cs ih =>
    intro d t h
    by_cases hc : isJsWs c = true
    · rw [List.dropWhile_cons_of_pos hc] at h
      exact ih h
    · rw [List.dropWhile_cons_of_neg hc] at h
      injection h with h1 _
      subst h1
      cases hb : isJsWs c with
      | false => rfl
      | true => exact absurd hb hc

theorem collapseWs2F_nil : ∀ f : Nat, collapseWs2F f [] = [] := by
  intro f
  cases f <;> rfl

theorem collapseWs2F_head_of_not_ws (f : Nat) (d : Char) (t : List Char)
    (hd : isJsWs d = false) : ∃ t2, collapseWs2F f (d :: t) = d :: t2 := by
  cases f with
  | zero => exact ⟨t, rfl⟩
  | succ f =>
    have hc : (isJsWs d && headWs t) = false := by rw [hd]; rfl
    rw [collapseWs2F_cons_false hc]
    exact ⟨_, rfl⟩

theorem noWsPair_collapseWs2F : ∀ (f : Nat) (l : List Char), l.length ≤ f →
    NoWsPair (collapseWs2F f l) := by
  intro f
  induction f with
  | zero =>
    intro l hl
    have h0 : l = [] := List.eq_nil_of_length_eq_zero (Nat.le_zero.mp hl)
    subst h0
    exact List.chain'_nil
  | succ f ih =>
    intro l hl
    cases l with
    | nil => exact List.chain'_nil
    | cons c cs =>
      have hcs : cs.length ≤ f := by
        simpa using Nat.le_of_succ_le_succ (by simpa using hl)
      cases hc : (isJsWs c && headWs cs) with
      | true =>
        rw [collapseWs2F_cons_true hc]
        refine List.chain'_cons'.mpr ⟨?_, ?_⟩
        · intro y hy
          rcases hd : cs.dropWhile isJsWs with _ | ⟨d, t⟩
          · rw [hd, collapseWs2F_nil] at hy
            simp at hy
          · have hdws : isJsWs d = false := dropWhile_head_not_ws hd
            obtain ⟨t2, ht2⟩ := collapseWs2F_head_of_not_ws f d t hdws
            rw [hd, ht2] at hy
            simp only [List.head?_cons, Option.mem_def, Option.some.injEq] at hy
            subst hy
            intro hcontra
            rw [hdws] at hcontra
            exact absurd hcontra.2 (by simp)
        · exact ih _ (le_trans (List.Sublist.length_le (List.dropWhile_sublist isJsWs)) hcs)
      | false =>
        rw [collapseWs2F_cons_false hc]
        refine List.chain'_cons'.mpr ⟨?_, ?_⟩
        · intro y hy
          intro hcontra
          have hcws : isJsWs c = true := hcontra.1
          have hws : headWs cs = false := by
            cases hh : headWs cs with
            | false => rfl
            | true => rw [hcws, hh] at hc; exact Bool.noConfusion hc
          rcases cs with _ | ⟨d, t⟩
          · rw [collapseWs2F_nil] at hy
            simp at hy
          · have hdws : isJsWs d = false := by simpa [headWs] using hws
            obtain ⟨t2, ht2⟩ := collapseWs2F_head_of_not_ws f d t hdws
            rw [ht2] at hy
            simp only [List.head?_cons, Option.mem_def, Option.some.injEq] at hy
            subst hy
            rw [hdws] at hcontra
            exact absurd hcontra.2 (by simp)
        · exact ih cs hcs

theorem noWsPair_of_append_right {t s : List Char} (h : NoWsPair (t ++ s)) :
    NoWsPair s :=
  (List.chain'_append.mp h).2.1

theorem noWsPair_dropWhile {l : List Char} (h : NoWsPair l) :
    NoWsPair (l.dropWhile isJsWs) := by
  apply noWsPair_of_append_right (t := l.takeWhile isJsWs)
  rw [List.takeWhile_append_dropWhile]
  exact h

theorem noWsPair_reverse {l : List Char} (h : NoWsPair l) : NoWsPair l.reverse := by
  show List.Chain' wsAdj l.reverse
  rw [List.chain'_reverse]
  exact h.imp fun a b hab => fun hp => hab ⟨hp.2, hp.1⟩

theorem noWsPair_jsTrim {l : List Char} (h : NoWsPair l) : NoWsPair (jsTrim l) := by
  unfold jsTrim
  exact noWsPair_reverse (noWsPair_dropWhile (noWsPair_reverse (noWsPair_dropWhile h)))

/-- The sanitized output never contains two adjacent whitespace characters:
the final collapsing pass `\s{2,} → ' '` removes every whitespace run of
length at least two, and trimming cannot create one. -/
theorem noWsPair_collapseWs2 (l : List Char) : NoWsPair (collapseWs2 l) :=
  noWsPair_collapseWs2F l.length l (le_refl _)

/-! ## The passes are the identity on a list with no adjacent whitespace -/

theorem takeWhile_singleton_of_noWsPair {c : Char} {cs : List Char}
    (h : ∀ y ∈ cs.head?, wsAdj c y) (hc : isJsWs c = true) :
    cs.takeWhile isJsWs = [] := by
  cases cs with
  | nil => rfl
  | cons d t =>
    have hd : ¬isJsWs d = true := fun hd => h d rfl ⟨hc, hd⟩
    exact List.takeWhile_cons_of_neg hd

theorem wsNlMatch_none_of_noWsPair {c : Char} {cs : List Char}
    (h : ∀ y ∈ cs.head?, wsAdj c y) : wsNlMatch (c :: cs) = none := by
  cases hc : isJsWs c with
  | false =>
    have ht : (c :: cs).takeWhile isJsWs = [] :=
      List.takeWhile_cons_of_neg (by simp [hc])
    simp [wsNlMatch, ht, lastNlIdx]
  | true =>
    have ht : (c :: cs).takeWhile isJsWs = [c] := by
      rw [List.takeWhile_cons_of_pos hc, takeWhile_singleton_of_noWsPair h hc]
    cases hnl : c == '\n' with
    | false => simp [wsNlMatch, ht, lastNlIdx, hnl]
    | true => simp [wsNlMatch, ht, lastNlIdx, hnl]

theorem collapseWsNlF_of_noWsPair : ∀ (f : Nat) (l : List Char), NoWsPair l →
    collapseWsNlF f l = l := by
  intro f
  induction f with
  | zero => intro l _; rfl
  | succ f ih =>
    intro l h
    cases l with
    | nil => rfl
    | cons c cs =>
      obtain ⟨h1, h2⟩ := List.chain'_cons'.mp h
      rw [collapseWsNlF_cons_none (wsNlMatch_none_of_noWsPair h1), ih cs h2]

theorem collapseNl3F_of_noWsPair : ∀ (f : Nat) (l : List Char), NoWsPair l →
    collapseNl3F f l = l := by
  intro f
  induction f with
  | zero => intro l _; rfl
  | succ f ih =>
    intro l h
    cases l with
    | nil => rfl
    | cons c cs =>
      obtain ⟨h1, h2⟩ := List.chain'_cons'.mp h
      have hcond : (c == '\n' && decide (2 ≤ (cs.takeWhile (fun d => d == '\n')).length))
          = false := by
        cases hnl : c == '\n' with
        | false => simp
        | true =>
          have hc : isJsWs c = true := by
            rw [show c = '\n' from by simpa using hnl]
            decide
          have ht := takeWhile_singleton_of_noWsPair h1 hc
          have ht2 : cs.takeWhile (fun d => d == '\n') = [] := by
            cases cs with
            | nil => rfl
            | cons d t =>
              have hd : ¬isJsWs d = true := fun hd => h1 d rfl ⟨hc, hd⟩
              have hdnl : ¬(d == '\n') = true := by
                intro hb
                exact hd (by rw [show d = '\n' from by simpa using hb]; decide)
              exact List.takeWhile_cons_of_neg hdnl
          simp [ht2]
      rw [collapseNl3F_cons_false hcond, ih cs h2]

theorem collapseWs2F_of_noWsPair : ∀ (f : Nat) (l : List Char), NoWsPair l →
    collapseWs2F f l = l := by
  intro f
  induction f with
  | zero => intro l _; rfl
  | succ f ih =>
    intro l h
    cases l with
    | nil => rfl
    | cons c cs =>
      obtain ⟨h1, h2⟩ := List.chain'_cons'.mp h
      have hcond : (isJsWs c && headWs cs) = false := by
        cases hc : isJsWs c with
        | false => simp
        | true =>
          cases cs with
          | nil => simp [headWs]
          | cons d t =>
            have hd : ¬isJsWs d = true := fun hd => h1 d rfl ⟨hc, hd⟩
            simp [headWs]
            simpa using hd
      rw [collapseWs2F_cons_false hcond, ih cs h2]

theorem collapseWsNl_of_noWsPair {l : List Char} (h : NoWsPair l) :
    collapseWsNl l = l :=
  collapseWsNlF_of_noWsPair l.length l h

theorem collapseNl3_of_noWsPair {l : List Char} (h : NoWsPair l) :
    collapseNl3 l = l :=
  collapseNl3F_of_noWsPair l.length l h

theorem collapseWs2_of_noWsPair {l : List Char} (h : NoWsPair l) :
    collapseWs2 l = l :=
  collapseWs2F_of_noWsPair l.length l h

attribute [irreducible] NoWsPair

theorem noWsPair_sanitize (msg name username : List Char) :
    NoWsPair (sanitizeMessage msg name username) := by
  rw [sanitizeMessage_eq]
  exact noWsPair_jsTrim (noWsPair_collapseWs2 _)

/-! ## Idempotence of trimming -/

theorem dropWhile_eq_self_of_head {l : List Char}
    (h : ∀ d t, l = d :: t → isJsWs d = false) : l.dropWhile isJsWs = l := by
  cases l with
  | nil => rfl
  | cons d t =>
    exact List.dropWhile_cons_of_neg (by simp [h d t rfl])

theorem jsTrim_head_not_ws {l : List Char} {d : Char} {t : List Char}
    (h : jsTrim l = d :: t) : isJsWs d = false := by
  unfold jsTrim at h
  have h2 : l.dropWhile isJsWs
      = ((l.dropWhile isJsWs).reverse.dropWhile isJsWs).reverse
        ++ ((l.dropWhile isJsWs).reverse.takeWhile isJsWs).reverse := by
    conv_lhs => rw [← List.reverse_reverse (l.dropWhile isJsWs)]
    conv_lhs =>
      rw [(List.takeWhile_append_dropWhile isJsWs (l.dropWhile isJsWs).reverse).symm]
    rw [List.reverse_append]
  rw [h, List.cons_append] at h2
  exact dropWhile_head_not_ws h2

theorem jsTrim_idem (l : List Char) : jsTrim (jsTrim l) = jsTrim l := by
  have h1 : (jsTrim l).dropWhile isJsWs = jsTrim l :=
    dropWhile_eq_self_of_head fun d t h => jsTrim_head_not_ws h
  show (((jsTrim l).dropWhile isJsWs).reverse.dropWhile isJsWs).reverse = jsTrim l
  rw [h1]
  have h2 : (jsTrim l).reverse = (l.dropWhile isJsWs).reverse.dropWhile isJsWs := by
    unfold jsTrim
    rw [List.reverse_reverse]
  rw [h2]
  have h3 : ((l.dropWhile isJsWs).reverse.dropWhile isJsWs).dropWhile isJsWs
      = (l.dropWhile isJsWs).reverse.dropWhile isJsWs :=
    dropWhile_eq_self_of_head fun d t h => dropWhile_head_not_ws h
  rw [h3, ← h2, List.reverse_reverse]

theorem sanitize_trim (msg name username : List Char) :
    jsTrim (sanitizeMessage msg name username) = sanitizeMessage msg name username := by
  rw [sanitizeMessage_eq]
  exact jsTrim_idem _

/-! ## The sanitizer fixes its own output (up to the brace placeholder) -/

theorem ph1Pats_heads : ∀ p ∈ ph1Pats, ∃ t, p = '[' :: t := by
  intro p hp
  simp only [ph1Pats, List.mem_cons, List.not_mem_nil, or_false] at hp
  rcases hp with rfl | rfl | rfl | rfl | rfl | rfl
  · exact ⟨"Name]".data, by decide⟩
  · exact ⟨"name]".data, by decide⟩
  · exact ⟨"Your Name/Brand]".data, by decide⟩
  · exact ⟨"your name]".data, by decide⟩
  · exact ⟨"brand]".data, by decide⟩
  · exact ⟨"Brand]".data, by decide⟩

/-- A list that is already trimmed, has no stripped characters, no adjacent
whitespace and no occurrence of a brace placeholder is a fixed point of the
sanitizer (for any name and username). -/
theorem sanitize_fixedpoint {y : List Char} (name username : List Char)
    (hchar : ∀ a ∈ y, isMdChar a = false ∧ isBrChar a = false)
    (hws : NoWsPair y) (htrim : jsTrim y = y)
    (hph2 : hasMatch ph2Pats y = false) :
    sanitizeMessage y name username = y := by
  have hlb : '[' ∉ y := fun h => absurd (hchar _ h).2 (by decide)
  have hlt : '<' ∉ y := fun h => absurd (hchar _ h).2 (by decide)
  have hfmd : List.filter (fun c => !isMdChar c) y = y :=
    List.filter_eq_self.mpr fun a ha => by simp [(hchar a ha).1]
  have hfbr : List.filter (fun c => !isBrChar c) y = y :=
    List.filter_eq_self.mpr fun a ha => by simp [(hchar a ha).2]
  rw [sanitizeMessage_eq, htrim,
    replaceAll_of_hasMatch_false (hasMatch_false_of_head ph1Pats_heads hlb),
    replaceAll_of_hasMatch_false hph2,
    angleReplace_of_not_mem hlt, hfmd, hfbr,
    collapseWsNl_of_noWsPair hws, collapseNl3_of_noWsPair hws,
    collapseWs2_of_noWsPair hws, htrim]

/-! ## Frame facts about the end-of-iteration step -/

theorem paceStep_js (E : LoopEnv) (i : Nat) (c : Config) :
    (paceStep E i c).js.lastStep = c.js.lastStep ∧
    (paceStep E i c).js.sent = c.js.sent ∧
    (paceStep E i c).js.failed = c.js.failed ∧
    (paceStep E i c).js.lastError = c.js.lastError ∧
    (paceStep E i c).js.running = c.js.running ∧
    (paceStep E i c).js.total = c.js.total ∧
    (paceStep E i c).js.index = c.js.index ∧
    (paceStep E i c).proxyIndex = c.proxyIndex := by
  unfold paceStep
  split <;> simp

theorem paceStep_pos {E : LoopEnv} {i : Nat} (c : Config) (h : i + 1 < E.total) :
    paceStep E i c
      = { c with
          pc := Pc.waiting i
          js := { c.js with nextSendAt := some (E.target i) } } := by
  unfold paceStep
  rw [if_pos h]

theorem paceStep_neg {E : LoopEnv} {i : Nat} (c : Config) (h : ¬i + 1 < E.total) :
    paceStep E i c = { c with pc := Pc.loopTop (i + 1) } := by
  unfold paceStep
  rw [if_neg h]

theorem lastStepOk_step {E : LoopEnv} {a : Bool} {c c' : Config}
    (h : Step E a c c') (hc : lastStepOk c.js.lastStep) :
    lastStepOk c'.js.lastStep := by
  cases h with
  | enter i h1 h2 h3 => exact Or.inr (Or.inl rfl)
  | exitLoop i h1 h2 => exact hc
  | resolveOk i h1 h2 => exact Or.inr (Or.inr (Or.inl rfl))
  | resolveFail i e h1 h2 => rw [lastStepOk, (paceStep_js E i _).1]; exact hc
  | genOk i h1 h2 => exact Or.inr (Or.inr (Or.inr rfl))
  | genFail i e h1 h2 => rw [lastStepOk, (paceStep_js E i _).1]; exact hc
  | sendOk i h1 h2 => rw [lastStepOk, (paceStep_js E i _).1]; exact hc
  | sendFail i e h1 h2 => rw [lastStepOk, (paceStep_js E i _).1]; exact hc
  | tick i h1 h2 => exact hc
  | waitExit i h1 => exact hc
  | stopReq h1 => exact hc

theorem lastStepOk_reach {E : LoopEnv} {a : Bool} {igU : String}
    {ua : Option String} {c : Config} (h : Reach E a igU ua c) :
    lastStepOk c.js.lastStep := by
  have h' : Relation.ReflTransGen (Step E a) (initConfig E igU ua) c := h
  clear h
  induction h' with
  | refl => exact Or.inl rfl
  | tail hsteps hstep ih => exact lastStepOk_step hstep ih

theorem nsAt_succ {E : LoopEnv} {i : Nat} (hlt : i < E.total)
    (hge : ¬i + 1 < E.total) : nsAt E (i + 1) = nsAt E i := by
  have htot : E.total = i + 1 := by omega
  by_cases hi : i = 0
  · subst hi
    unfold nsAt
    simp [htot]
  · unfold nsAt
    rw [if_neg (by omega : ¬i + 1 = 0), if_neg hge,
      if_pos (by omega : 2 ≤ E.total), if_neg hi, if_pos hlt]
    have harg : E.total - 2 = i - 1 := by omega
    rw [harg]

theorem nsInv_paceStep {E : LoopEnv} {i : Nat} (c2 : Config)
    (h1 : c2.js.nextSendAt = nsAt E i) (h2 : i < E.total) :
    nsInv E (paceStep E i c2) := by
  by_cases hp : i + 1 < E.total
  · show nsInvAt E (paceStep E i c2).pc (paceStep E i c2).js.nextSendAt
    rw [paceStep_pos c2 hp]
    exact ⟨rfl, hp⟩
  · show nsInvAt E (paceStep E i c2).pc (paceStep E i c2).js.nextSendAt
    rw [paceStep_neg c2 hp]
    show c2.js.nextSendAt = nsAt E (i + 1) ∧ i + 1 ≤ E.total
    refine ⟨?_, by omega⟩
    rw [h1, nsAt_succ h2 hp]

theorem nsInv_step {E : LoopEnv} {a : Bool} {c c' : Config}
    (h : Step E a c c') (hc : nsInv E c) : nsInv E c' := by
  cases h with
  | enter i h1 h2 h3 =>
    simp only [nsInv, h1, nsInvAt] at hc
    exact ⟨hc.1, h3⟩
  | exitLoop i h1 h2 =>
    show (none : Option Nat) = none
    rfl
  | resolveOk i h1 h2 =>
    simp only [nsInv, h1, nsInvAt] at hc
    exact hc
  | resolveFail i e h1 h2 =>
    simp only [nsInv, h1, nsInvAt] at hc
    exact nsInv_paceStep _ hc.1 hc.2
  | genOk i h1 h2 =>
    simp only [nsInv, h1, nsInvAt] at hc
    exact hc
  | genFail i e h1 h2 =>
    simp only [nsInv, h1, nsInvAt] at hc
    exact nsInv_paceStep _ hc.1 hc.2
  | sendOk i h1 h2 =>
    simp only [nsInv, h1, nsInvAt] at hc
    exact nsInv_paceStep _ hc.1 hc.2
  | sendFail i e h1 h2 =>
    simp only [nsInv, h1, nsInvAt] at hc
    exact nsInv_paceStep _ hc.1 hc.2
  | tick i h1 h2 => exact hc
  | waitExit i h1 =>
    simp only [nsInv, h1, nsInvAt] at hc
    show c.js.nextSendAt = nsAt E (i + 1) ∧ i + 1 ≤ E.total
    refine ⟨?_, by omega⟩
    rw [hc.1]
    unfold nsAt
    rw [if_neg (by omega : ¬i + 1 = 0), if_pos hc.2]
    simp
  | stopReq h1 => exact hc

theorem nsInv_reach {E : LoopEnv} {a : Bool} {igU : String}
    {ua : Option String} {c : Config} (h : Reach E a igU ua c) :
    nsInv E c := by
  have h' : Relation.ReflTransGen (Step E a) (initConfig E igU ua) c := h
  clear h
  induction h' with
  | refl => exact ⟨rfl, Nat.zero_le _⟩
  | tail hsteps hstep ih => exact nsInv_step hstep ih

theorem countInv_paceStep {E : LoopEnv} {i : Nat} (c2 : Config)
    (hr : c2.js.running = true) (hlt : i < E.total)
    (hsf : c2.js.sent + c2.js.failed = i + 1) (hidx : c2.js.index = i) :
    countInv E (paceStep E i c2) := by
  by_cases hp : i + 1 < E.total
  · show countInvAt E (paceStep E i c2).pc (paceStep E i c2).js
    rw [paceStep_pos c2 hp]
    exact ⟨hr, hp, hsf, hidx⟩
  · show countInvAt E (paceStep E i c2).pc (paceStep E i c2).js
    rw [paceStep_neg c2 hp]
    refine ⟨hr, by omega, hsf, ?_⟩
    show c2.js.index = i + 1 - 1
    omega

theorem countInv_step {E : LoopEnv} {c c' : Config}
    (h : Step E false c c') (hc : countInv E c) : countInv E c' := by
  cases h with
  | enter i h1 h2 h3 =>
    simp only [countInv, h1, countInvAt] at hc
    exact ⟨h2, h3, hc.2.2.1, rfl⟩
  | exitLoop i h1 h2 =>
    simp only [countInv, h1, countInvAt] at hc
    have hi : i = E.total := by
      rcases h2 with h2 | h2
      · rw [hc.1] at h2; exact Bool.noConfusion h2
      · have := hc.2.1; omega
    rw [hi] at hc
    exact ⟨hc.2.2.1, hc.2.2.2⟩
  | resolveOk i h1 h2 =>
    simp only [countInv, h1, countInvAt] at hc
    exact hc
  | resolveFail i e h1 h2 =>
    simp only [countInv, h1, countInvAt] at hc
    exact countInv_paceStep _ hc.1 hc.2.1 (by show c.js.sent + (c.js.failed + 1) = i + 1; have := hc.2.2.1; omega) hc.2.2.2
  | genOk i h1 h2 =>
    simp only [countInv, h1, countInvAt] at hc
    exact hc
  | genFail i e h1 h2 =>
    simp only [countInv, h1, countInvAt] at hc
    exact countInv_paceStep _ hc.1 hc.2.1 (by show c.js.sent + (c.js.failed + 1) = i + 1; have := hc.2.2.1; omega) hc.2.2.2
  | sendOk i h1 h2 =>
    simp only [countInv, h1, countInvAt] at hc
    exact countInv_paceStep _ hc.1 hc.2.1 (by show c.js.sent + 1 + c.js.failed = i + 1; have := hc.2.2.1; omega) hc.2.2.2
  | sendFail i e h1 h2 =>
    simp only [countInv, h1, countInvAt] at hc
    exact countInv_paceStep _ hc.1 hc.2.1 (by show c.js.sent + (c.js.failed + 1) = i + 1; have := hc.2.2.1; omega) hc.2.2.2
  | tick i h1 h2 => exact hc
  | waitExit i h1 =>
    simp only [countInv, h1, countInvAt] at hc
    refine ⟨hc.1, by have := hc.2.1; omega, hc.2.2.1, ?_⟩
    show c.js.index = i + 1 - 1
    have := hc.2.2.2
    omega
  | stopReq h1 => exact Bool.noConfusion h1

theorem countInv_reach {E : LoopEnv} {igU : String} {ua : Option String}
    {c : Config} (h : Reach E false igU ua c) : countInv E c := by
  have h' : Relation.ReflTransGen (Step E false) (initConfig E igU ua) c := h
  clear h
  induction h' with
  | refl => exact ⟨rfl, Nat.zero_le _, rfl, rfl⟩
  | tail hsteps hstep ih => exact countInv_step hstep ih

theorem stopped_idle_step {E : LoopEnv} {a : Bool} {c c' : Config}
    (h : Step E a c c') (hr : c.js.running = false) (hp : idlePc c.pc) :
    c'.js.sent = c.js.sent ∧ c'.js.failed = c.js.failed ∧
      c'.js.running = false ∧ idlePc c'.pc := by
  cases h with
  | enter i h1 h2 h3 => rw [hr] at h2; exact Bool.noConfusion h2
  | exitLoop i h1 h2 => exact ⟨rfl, rfl, rfl, trivial⟩
  | resolveOk i h1 h2 => rw [h1] at hp; exact hp.elim
  | resolveFail i e h1 h2 => rw [h1] at hp; exact hp.elim
  | genOk i h1 h2 => rw [h1] at hp; exact hp.elim
  | genFail i e h1 h2 => rw [h1] at hp; exact hp.elim
  | sendOk i h1 h2 => rw [h1] at hp; exact hp.elim
  | sendFail i e h1 h2 => rw [h1] at hp; exact hp.elim
  | tick i h1 h2 => rw [hr] at h2; exact Bool.noConfusion h2
  | waitExit i h1 => exact ⟨rfl, rfl, hr, trivial⟩
  | stopReq h1 => exact ⟨rfl, rfl, rfl, hp⟩

theorem stopped_idle_steps {E : LoopEnv} {a : Bool} {c c' : Config}
    (h : Steps E a c c') (hr : c.js.running = false) (hp : idlePc c.pc) :
    c'.js.sent = c.js.sent ∧ c'.js.failed = c.js.failed ∧
      c'.js.running = false ∧ idlePc c'.pc := by
  have h' : Relation.ReflTransGen (Step E a) c c' := h
  clear h
  induction h' with
  | refl => exact ⟨rfl, rfl, hr, hp⟩
  | tail hsteps hstep ih =>
    obtain ⟨e1, e2, e3, e4⟩ := ih
    obtain ⟨f1, f2, f3, f4⟩ := stopped_idle_step hstep e3 e4
    exact ⟨f1.trans e1, f2.trans e2, f3, f4⟩

/-! ## Claim theorems: the job controller -/

/-- Claim C5, counterexample: in a reachable state the `lastStep` field holds
`"resolve_user_pk"`, which is none of the four values
`login_success`/`resolve_user`/`generate_message`/`send_message` named by the
claim (the code writes `resolve_user_pk` and `send_dm`). -/
theorem lastStep_spelling_counterexample :
    Reach envA true "u" none cfgResolveA ∧
    cfgResolveA.js.lastStep = some "resolve_user_pk" ∧
    some "resolve_user_pk" ≠ (some "login_success" : Option String) ∧
    some "resolve_user_pk" ≠ (some "resolve_user" : Option String) ∧
    some "resolve_user_pk" ≠ (some "generate_message" : Option String) ∧
    some "resolve_user_pk" ≠ (some "send_message" : Option String) :=
  ⟨Relation.ReflTransGen.single (Step.enter _ 0 rfl rfl (by decide)),
   rfl, by decide, by decide, by decide, by decide⟩

/-- Claim C5 (amended): in every reachable state of a started job, `lastStep`
is one of exactly the four values `login_success`, `resolve_user_pk`,
`generate_message`, `send_dm` — the spellings the server actually writes. -/
theorem lastStep_values_amended (E : LoopEnv) (a : Bool) (igU : String)
    (ua : Option String) (c : Config) (h : Reach E a igU ua c) :
    c.js.lastStep = some "login_success" ∨
      c.js.lastStep = some "resolve_user_pk" ∨
      c.js.lastStep = some "generate_message" ∨
      c.js.lastStep = some "send_dm" :=
  lastStepOk_reach h

/-- Witness for the amended C5 theorem at the start configuration. -/
theorem lastStep_values_amended_witness :
    (initConfig envA "u" none).js.lastStep = some "login_success" ∨
      (initConfig envA "u" none).js.lastStep = some "resolve_user_pk" ∨
      (initConfig envA "u" none).js.lastStep = some "generate_message" ∨
      (initConfig envA "u" none).js.lastStep = some "send_dm" :=
  lastStep_values_amended envA true "u" none _ Relation.ReflTransGen.refl

/-- Claim C6, counterexample: a reachable state whose program counter is the
in-flight resolve call of recipient 1 still has `nextSendAt` set (to the
previous wait's target), since the loop clears `nextSendAt` only in its
`finally` block. -/
theorem nextSendAt_in_flight_counterexample :
    Reach envB true "u" none cfgResolveB ∧
    cfgResolveB.js.lastStep = some "resolve_user_pk" ∧
    cfgResolveB.js.nextSendAt = some 1000 ∧
    cfgResolveB.js.nextSendAt ≠ none :=
  ⟨Relation.ReflTransGen.tail (Relation.ReflTransGen.tail (Relation.ReflTransGen.tail
      (Relation.ReflTransGen.tail (Relation.ReflTransGen.tail
        (Relation.ReflTransGen.single (Step.enter _ 0 rfl rfl (by decide)))
        (Step.resolveOk _ 0 rfl rfl))
        (Step.genOk _ 0 rfl rfl))
        (Step.sendOk _ 0 rfl rfl))
        (Step.waitExit _ 0 rfl))
      (Step.enter _ 1 rfl rfl (by decide)),
   rfl, rfl, by decide⟩

/-- Claim C6 (amended): in every reachable state, `nextSendAt` is `none`
after the loop has exited and throughout iteration 0 (before any wait was
scheduled); while the countdown after recipient `i` is pending it holds that
wait's target; and during the dispatch of a later recipient `i ≥ 1` it still
holds the stale target of the previous wait — it is not absent there. -/
theorem nextSendAt_lifecycle_amended (E : LoopEnv) (a : Bool) (igU : String)
    (ua : Option String) (c : Config) (h : Reach E a igU ua c) :
    (c.pc = Pc.done → c.js.nextSendAt = none) ∧
    (∀ i, c.pc = Pc.waiting i → c.js.nextSendAt = some (E.target i)) ∧
    ((c.pc = Pc.loopTop 0 ∨ c.pc = Pc.resolve 0 ∨ c.pc = Pc.generate 0 ∨
        c.pc = Pc.send 0) → c.js.nextSendAt = none) ∧
    (∀ i, 0 < i →
      (c.pc = Pc.resolve i ∨ c.pc = Pc.generate i ∨ c.pc = Pc.send i) →
      c.js.nextSendAt = some (E.target (i - 1))) := by
  have hv := nsInv_reach h
  refine ⟨?_, ?_, ?_, ?_⟩
  · intro hpc
    simp only [nsInv, hpc, nsInvAt] at hv
    exact hv
  · intro i hpc
    simp only [nsInv, hpc, nsInvAt] at hv
    exact hv.1
  · intro hpc
    rcases hpc with hpc | hpc | hpc | hpc <;>
      simp only [nsInv, hpc, nsInvAt] at hv <;>
      simpa [nsAt] using hv.1
  · intro i hi hpc
    have hzero : ¬i = 0 := by omega
    rcases hpc with hpc | hpc | hpc <;>
      simp only [nsInv, hpc, nsInvAt] at hv <;>
      · rw [hv.1]
        unfold nsAt
        rw [if_neg hzero, if_pos hv.2]

/-- Witness for the amended C6 theorem at the start configuration. -/
theorem nextSendAt_lifecycle_amended_witness :
    ((initConfig envA "u" none).pc = Pc.done →
      (initConfig envA "u" none).js.nextSendAt = none) ∧
    (∀ i, (initConfig envA "u" none).pc = Pc.waiting i →
      (initConfig envA "u" none).js.nextSendAt = some (envA.target i)) ∧
    (((initConfig envA "u" none).pc = Pc.loopTop 0 ∨
        (initConfig envA "u" none).pc = Pc.resolve 0 ∨
        (initConfig envA "u" none).pc = Pc.generate 0 ∨
        (initConfig envA "u" none).pc = Pc.send 0) →
      (initConfig envA "u" none).js.nextSendAt = none) ∧
    (∀ i, 0 < i →
      ((initConfig envA "u" none).pc = Pc.resolve i ∨
        (initConfig envA "u" none).pc = Pc.generate i ∨
        (initConfig envA "u" none).pc = Pc.send i) →
      (initConfig envA "u" none).js.nextSendAt = some (envA.target (i - 1))) :=
  nextSendAt_lifecycle_amended envA true "u" none _ Relation.ReflTransGen.refl

/-- Claim C2: if the background loop of a non-empty job runs to completion
without cancellation (no stop request ever arrives), then at loop exit
`sent + failed = total` and `index = total - 1`; each of the iterations
contributed exactly one increment, as every intermediate state satisfies the
counter invariant `countInv`. -/
theorem loop_completion_counts (E : LoopEnv) (igU : String) (ua : Option String)
    (c : Config) (h : Reach E false igU ua c) (hdone : c.pc = Pc.done)
    (_hne : 1 ≤ E.total) :
    c.js.sent + c.js.failed = E.total ∧ c.js.index = E.total - 1 := by
  have hv := countInv_reach h
  simp only [countInv, hdone, countInvAt] at hv
  exact hv

/-- Witness for C2: the uncancelled run of the one-recipient job `envA`
reaches `cfgDone` with `sent + failed = 1` and `index = 0`. -/
theorem loop_completion_counts_witness :
    cfgDone.js.sent + cfgDone.js.failed = envA.total ∧
      cfgDone.js.index = envA.total - 1 :=
  loop_completion_counts envA "u" none cfgDone
    (Relation.ReflTransGen.tail (Relation.ReflTransGen.tail
      (Relation.ReflTransGen.tail (Relation.ReflTransGen.tail
        (Relation.ReflTransGen.single (Step.enter _ 0 rfl rfl (by decide)))
        (Step.resolveOk _ 0 rfl rfl))
        (Step.genOk _ 0 rfl rfl))
        (Step.sendOk _ 0 rfl rfl))
      (Step.exitLoop _ 1 rfl (Or.inr (by decide))))
    rfl (by decide)

/-- Claim C10: every transition of the loop leaves `total` unchanged, and
either leaves both counters and `lastError` unchanged, or completes one
dispatch: on success `sent` increments by exactly one, `failed` is unchanged
and `lastError` is cleared (even if an earlier recipient had failed); on
failure `failed` increments by exactly one, `sent` is unchanged and
`lastError` is set to the message of the stage that threw. -/
theorem dispatch_step_frame (E : LoopEnv) (a : Bool) (c c' : Config)
    (h : Step E a c c') :
    c'.js.total = c.js.total ∧
    ((c'.js.sent = c.js.sent ∧ c'.js.failed = c.js.failed ∧
        c'.js.lastError = c.js.lastError) ∨
     (c'.js.sent = c.js.sent + 1 ∧ c'.js.failed = c.js.failed ∧
        c'.js.lastError = none) ∨
     (∃ i e, c'.js.failed = c.js.failed + 1 ∧ c'.js.sent = c.js.sent ∧
        c'.js.lastError = some e ∧
        ((c.pc = Pc.resolve i ∧ E.resolveErr i = some e) ∨
         (c.pc = Pc.generate i ∧ E.genErr i = some e) ∨
         (c.pc = Pc.send i ∧ E.sendErr i = some e)))) := by
  cases h with
  | enter i h1 h2 h3 => exact ⟨rfl, Or.inl ⟨rfl, rfl, rfl⟩⟩
  | exitLoop i h1 h2 => exact ⟨rfl, Or.inl ⟨rfl, rfl, rfl⟩⟩
  | resolveOk i h1 h2 => exact ⟨rfl, Or.inl ⟨rfl, rfl, rfl⟩⟩
  | resolveFail i e h1 h2 =>
    have hj := paceStep_js E i
      { c with js := { c.js with failed := c.js.failed + 1, lastError := some e } }
    exact ⟨hj.2.2.2.2.2.1, Or.inr (Or.inr ⟨i, e, hj.2.2.1, hj.2.1,
      hj.2.2.2.1, Or.inl ⟨h1, h2⟩⟩)⟩
  | genOk i h1 h2 => exact ⟨rfl, Or.inl ⟨rfl, rfl, rfl⟩⟩
  | genFail i e h1 h2 =>
    have hj := paceStep_js E i
      { c with js := { c.js with failed := c.js.failed + 1, lastError := some e } }
    exact ⟨hj.2.2.2.2.2.1, Or.inr (Or.inr ⟨i, e, hj.2.2.1, hj.2.1,
      hj.2.2.2.1, Or.inr (Or.inl ⟨h1, h2⟩)⟩)⟩
  | sendOk i h1 h2 =>
    have hj := paceStep_js E i
      { c with js := { c.js with sent := c.js.sent + 1, lastError := none } }
    exact ⟨hj.2.2.2.2.2.1, Or.inr (Or.inl ⟨hj.2.1, hj.2.2.1, hj.2.2.2.1⟩)⟩
  | sendFail i e h1 h2 =>
    have hj := paceStep_js E i
      { c with js := { c.js with failed := c.js.failed + 1, lastError := some e } }
    exact ⟨hj.2.2.2.2.2.1, Or.inr (Or.inr ⟨i, e, hj.2.2.1, hj.2.1,
      hj.2.2.2.1, Or.inr (Or.inr ⟨h1, h2⟩)⟩)⟩
  | tick i h1 h2 => exact ⟨rfl, Or.inl ⟨rfl, rfl, rfl⟩⟩
  | waitExit i h1 => exact ⟨rfl, Or.inl ⟨rfl, rfl, rfl⟩⟩
  | stopReq h1 => exact ⟨rfl, Or.inl ⟨rfl, rfl, rfl⟩⟩

/-- Witness for C10 at the successful send of `envA`'s only recipient. -/
theorem dispatch_step_frame_witness :
    cfgPaced.js.total = cfgSend.js.total ∧
    ((cfgPaced.js.sent = cfgSend.js.sent ∧ cfgPaced.js.failed = cfgSend.js.failed ∧
        cfgPaced.js.lastError = cfgSend.js.lastError) ∨
     (cfgPaced.js.sent = cfgSend.js.sent + 1 ∧ cfgPaced.js.failed = cfgSend.js.failed ∧
        cfgPaced.js.lastError = none) ∨
     (∃ i e, cfgPaced.js.failed = cfgSend.js.failed + 1 ∧
        cfgPaced.js.sent = cfgSend.js.sent ∧ cfgPaced.js.lastError = some e ∧
        ((cfgSend.pc = Pc.resolve i ∧ envA.resolveErr i = some e) ∨
         (cfgSend.pc = Pc.generate i ∧ envA.genErr i = some e) ∨
         (cfgSend.pc = Pc.send i ∧ envA.sendErr i = some e)))) :=
  dispatch_step_frame envA true cfgSend cfgPaced (Step.sendOk _ 0 rfl rfl)

/-- Claim C1, counterexample: a stop request that lands while a dispatch is
in flight immediately yields `running = false` with `sent = 0`, yet the
in-flight dispatch still completes afterwards and increments `sent` to 1 —
so `sent` does increase after stop, against the claim's "sent/failed never
increase afterwards". -/
theorem stop_mid_dispatch_counterexample :
    Reach envA true "u" none cfgStopped ∧
    cfgStopped.js.running = false ∧ cfgStopped.js.sent = 0 ∧
    Steps envA true cfgStopped cfgRunOn ∧
    cfgRunOn.js.running = false ∧ cfgRunOn.js.sent = 1 :=
  ⟨Relation.ReflTransGen.tail
      (Relation.ReflTransGen.single (Step.enter _ 0 rfl rfl (by decide)))
      (Step.stopReq _ rfl),
   rfl, rfl,
   Relation.ReflTransGen.tail (Relation.ReflTransGen.tail
      (Relation.ReflTransGen.single (Step.resolveOk _ 0 rfl rfl))
      (Step.genOk _ 0 rfl rfl))
      (Step.sendOk _ 0 rfl rfl),
   rfl, rfl⟩

/-- Claim C1 (amended): stop sets `running = false`; it is idempotent and a
stop with no job running is a no-op that still succeeds; it never aborts an
in-flight dispatch (it changes only the `running` flag); a status read
immediately after stop observes `running = false`; and whenever the flag is
down at a point with no dispatch in flight (loop top, countdown wait, or
after exit), `sent` and `failed` never increase afterwards.  If a dispatch
is in flight when stop lands, that dispatch still completes and contributes
its one increment. -/
theorem stop_semantics_amended :
    (∀ s : Js, (stopJs s).running = false) ∧
    (∀ s : Js, stopJs (stopJs s) = stopJs s) ∧
    (∀ s : Js, s.running = false → stopJs s = s) ∧
    (∀ (now : Nat) (s : Js), (statusOf now (stopJs s)).running = false) ∧
    (∀ s : Js, (stopJs s).sent = s.sent ∧ (stopJs s).failed = s.failed ∧
      (stopJs s).index = s.index ∧ (stopJs s).lastStep = s.lastStep ∧
      (stopJs s).nextSendAt = s.nextSendAt) ∧
    (∀ (E : LoopEnv) (a : Bool) (c c' : Config), Steps E a c c' →
      c.js.running = false → idlePc c.pc →
      c'.js.sent = c.js.sent ∧ c'.js.failed = c.js.failed ∧
        c'.js.running = false) := by
  refine ⟨fun s => rfl, fun s => rfl, ?_, fun now s => rfl,
    fun s => ⟨rfl, rfl, rfl, rfl, rfl⟩, ?_⟩
  · intro s hs
    cases s
    simp only [stopJs]
    rw [← hs]
  · intro E a c c' h hr hp
    obtain ⟨e1, e2, e3, _⟩ := stopped_idle_steps h hr hp
    exact ⟨e1, e2, e3⟩

/-- Witness for the amended C1 theorem: a stop on the idle boot state is a
no-op, and from the stopped idle configuration `cfgRunOn` the counters never
move again. -/
theorem stop_semantics_amended_witness :
    stopJs initialState = initialState ∧
    (cfgRunOn.js.sent = cfgRunOn.js.sent ∧ cfgRunOn.js.failed = cfgRunOn.js.failed ∧
      cfgRunOn.js.running = false) :=
  ⟨stop_semantics_amended.2.2.1 initialState rfl,
   stop_semantics_amended.2.2.2.2.2 envA true cfgRunOn cfgRunOn
     Relation.ReflTransGen.refl rfl trivial⟩

/-- Claim C9: the proxy rotator is round-robin over the validated list: with
list `[A,B,C]` five successive selections yield `A,B,C,A,B`; a selection on a
non-empty list returns `list[cursor % length]` and increments the cursor;
on an empty list every selection yields no proxy and never increments. -/
theorem proxy_rotator_round_robin :
    (∀ A B C : String,
      proxyRun [A, B, C] 0 5 = [some A, some B, some C, some A, some B]) ∧
    (∀ cursor : Nat, proxyNext [] cursor = (none, cursor)) ∧
    (∀ (l : List String) (cursor : Nat), 0 < l.length →
      proxyNext l cursor = (l.get? (cursor % l.length), cursor + 1)) ∧
    (∀ cursor k : Nat, proxyRun [] cursor k = List.replicate k none) := by
  refine ⟨?_, fun cursor => rfl, ?_, ?_⟩
  · intro A B C
    simp [proxyRun, proxyNext]
  · intro l cursor h
    simp [proxyNext, h]
  · intro cursor k
    induction k with
    | zero => rfl
    | succ k ih =>
      show (none : Option String) :: proxyRun [] cursor k
        = none :: List.replicate k none
      rw [ih]

/-- Witness for C9 on the singleton list at cursor 0. -/
theorem proxy_rotator_round_robin_witness :
    0 < (["p1"] : List String).length ∧ proxyNext ["p1"] 0 = (some "p1", 1) :=
  ⟨by decide,
   (proxy_rotator_round_robin.2.2.1 ["p1"] 0 (by decide)).trans (by decide)⟩

/-! ## Claim theorems: the sanitizer -/

/-- Claim C3, counterexample: three consecutive line breaks do not collapse
to exactly two — the whole run collapses to a single line break (the first
pass `\s+\n → \n` already swallows newline runs), so a paragraph break of two
line breaks cannot survive sanitization. -/
theorem sanitize_paragraph_break_counterexample :
    sanitizeMessage "a\n\n\nb".data "Bob".data "bob".data = "a\nb".data ∧
    sanitizeMessage "a\n\nb".data "Bob".data "bob".data = "a\nb".data ∧
    sanitizeMessage "a\n\n\nb".data "Bob".data "bob".data ≠ "a\n\nb".data :=
  ⟨by decide, by decide, by decide⟩

/-- Claim C3 (amended): the sanitizer collapses a run of whitespace before a
line break to a single line break and collapses any remaining run of two or
more whitespace characters (including line breaks) to one space, so its
output never contains two adjacent whitespace characters — in particular no
paragraph break of two line breaks survives. -/
theorem sanitize_whitespace_collapse_amended :
    (∀ msg name username : List Char,
      NoWsPair (sanitizeMessage msg name username)) ∧
    sanitizeMessage "a \nb".data "Bob".data "bob".data = "a\nb".data ∧
    sanitizeMessage "a  b".data "Bob".data "bob".data = "a b".data :=
  ⟨noWsPair_sanitize, by decide, by decide⟩

/-- Claim C4, counterexample: the bracket placeholder is matched
case-sensitively, so `[NAME]` is not replaced by the fallback name — only its
brackets are stripped. -/
theorem sanitize_placeholder_case_counterexample :
    sanitizeMessageJs "[NAME]".data "Bob".data "bob".data = "NAME".data ∧
    sanitizeMessageJs "[NAME]".data "Bob".data "bob".data ≠ "Bob".data :=
  ⟨by decide, by decide⟩

/-- Claim C4 (amended): exactly the spellings `[Name]`, `[name]`,
`[Your Name/Brand]`, `[your name]`, `[brand]`, `[Brand]`, `{name}`, `{Name}`
are replaced (case-sensitively), and the angle form `<name>` (optional inner
whitespace) case-insensitively, by the fallback — the display name or, when
that is empty, the raw handle — expanded by the JavaScript substitution
rules for string replacements: a dollar-free fallback is inserted verbatim,
while `$$`, `$&`, `` $` `` and `$'` in the fallback expand to a dollar sign,
the matched text, the text before the match and the text after the match.
Other case variants such as `[NAME]` or `{NAME}` are not replaced. -/
theorem sanitize_placeholder_exact_spellings :
    (∀ rep : List Char, '$' ∉ rep →
      replaceAllJs ph1Pats rep "[Name]".data = rep) ∧
    (∀ msg name username : List Char, '$' ∉ name → '$' ∉ username →
      sanitizeMessageJs msg name username = sanitizeMessage msg name username) ∧
    (∀ rep : List Char, '$' ∉ rep →
      replaceAllJs ph1Pats rep "[name]".data = rep) ∧
    (∀ rep : List Char, '$' ∉ rep →
      replaceAllJs ph1Pats rep "[Your Name/Brand]".data = rep) ∧
    (∀ rep : List Char, '$' ∉ rep →
      replaceAllJs ph1Pats rep "[your name]".data = rep) ∧
    (∀ rep : List Char, '$' ∉ rep →
      replaceAllJs ph1Pats rep "[brand]".data = rep) ∧
    (∀ rep : List Char, '$' ∉ rep →
      replaceAllJs ph1Pats rep "[Brand]".data = rep) ∧
    (∀ rep : List Char, '$' ∉ rep →
      replaceAllJs ph2Pats rep "{name}".data = rep) ∧
    (∀ rep : List Char, '$' ∉ rep →
      replaceAllJs ph2Pats rep "{Name}".data = rep) ∧
    (∀ rep : List Char, '$' ∉ rep → angleReplaceJs rep "<NaMe>".data = rep) ∧
    (∀ rep : List Char, '$' ∉ rep → angleReplaceJs rep "< name >".data = rep) ∧
    replaceAllJs ph1Pats "$$".data "[Name]".data = "$".data ∧
    replaceAllJs ph1Pats "$&".data "[Name]".data = "[Name]".data ∧
    replaceAllJs ph1Pats ['$', backtickChar] "x[Name]y".data = "xxy".data ∧
    replaceAllJs ph1Pats ['$', quoteChar] "x[Name]y".data = "xyy".data ∧
    sanitizeMessageJs "[Name]".data "a$&b".data "bob".data = "aNameb".data ∧
    sanitizeMessageJs "[Name]".data "Bob".data "bob".data = "Bob".data ∧
    sanitizeMessageJs "[Name]".data "".data "bob".data = "bob".data ∧
    sanitizeMessageJs "{Name}".data "Bob".data "bob".data = "Bob".data ∧
    sanitizeMessageJs "<name>".data "Bob".data "bob".data = "Bob".data ∧
    sanitizeMessageJs "[NAME]".data "Bob".data "bob".data = "NAME".data ∧
    sanitizeMessageJs "{NAME}".data "Bob".data "bob".data = "{NAME}".data := by
  refine ⟨?_, ?_, ?_, ?_, ?_, ?_, ?_, ?_, ?_, ?_, ?_,
    by decide, by decide, by decide, by decide, by decide, by decide,
    by decide, by decide, by decide, by decide, by decide⟩
  · intro rep h
    rw [show replaceAllJs ph1Pats rep ("[Name]".data)
        = expandRepl ("[Name]".data) [] [] rep ++ [] from rfl,
      List.append_nil, expandRepl_of_no_dollar _ _ _ rep h]
  · intro msg name username hn hu
    exact sanitizeMessageJs_eq_sanitizeMessage msg name username hn hu
  · intro rep h
    rw [show replaceAllJs ph1Pats rep ("[name]".data)
        = expandRepl ("[name]".data) [] [] rep ++ [] from rfl,
      List.append_nil, expandRepl_of_no_dollar _ _ _ rep h]
  · intro rep h
    rw [show replaceAllJs ph1Pats rep ("[Your Name/Brand]".data)
        = expandRepl ("[Your Name/Brand]".data) [] [] rep ++ [] from rfl,
      List.append_nil, expandRepl_of_no_dollar _ _ _ rep h]
  · intro rep h
    rw [show replaceAllJs ph1Pats rep ("[your name]".data)
        = expandRepl ("[your name]".data) [] [] rep ++ [] from rfl,
      List.append_nil, expandRepl_of_no_dollar _ _ _ rep h]
  · intro rep h
    rw [show replaceAllJs ph1Pats rep ("[brand]".data)
        = expandRepl ("[brand]".data) [] [] rep ++ [] from rfl,
      List.append_nil, expandRepl_of_no_dollar _ _ _ rep h]
  · intro rep h
    rw [show replaceAllJs ph1Pats rep ("[Brand]".data)
        = expandRepl ("[Brand]".data) [] [] rep ++ [] from rfl,
      List.append_nil, expandRepl_of_no_dollar _ _ _ rep h]
  · intro rep h
    rw [show replaceAllJs ph2Pats rep ("{name}".data)
        = expandRepl ("{name}".data) [] [] rep ++ [] from rfl,
      List.append_nil, expandRepl_of_no_dollar _ _ _ rep h]
  · intro rep h
    rw [show replaceAllJs ph2Pats rep ("{Name}".data)
        = expandRepl ("{Name}".data) [] [] rep ++ [] from rfl,
      List.append_nil, expandRepl_of_no_dollar _ _ _ rep h]
  · intro rep h
    rw [show angleReplaceJs rep ("<NaMe>".data)
        = expandRepl ("<NaMe>".data) [] [] rep ++ [] from rfl,
      List.append_nil, expandRepl_of_no_dollar _ _ _ rep h]
  · intro rep h
    rw [show angleReplaceJs rep ("< name >".data)
        = expandRepl ("< name >".data) [] [] rep ++ [] from rfl,
      List.append_nil, expandRepl_of_no_dollar _ _ _ rep h]

/-- Witness for the amended C4 theorem: a dollar-free fallback is spliced
verbatim, and on a dollar-free fallback the substitution-aware sanitizer
agrees with the literal-splicing one. -/
theorem sanitize_placeholder_exact_spellings_witness :
    ('$' ∉ ("Bob".data) ∧
      replaceAllJs ph1Pats "Bob".data "[Name]".data = "Bob".data) ∧
    sanitizeMessageJs "hi".data "Bob".data "bob".data
      = sanitizeMessage "hi".data "Bob".data "bob".data :=
  ⟨⟨by decide, sanitize_placeholder_exact_spellings.1 "Bob".data (by decide)⟩,
   sanitize_placeholder_exact_spellings.2.1 "hi".data "Bob".data "bob".data
     (by decide) (by decide)⟩

/-- Claim C7, counterexample: sanitizing `"{n*ame}"` strips the asterisk and
yields the brace placeholder `"{name}"` (braces are never stripped), whose
second sanitization replaces it by the fallback name — the sanitizer is not
idempotent. -/
theorem sanitize_not_idempotent :
    sanitizeMessage "{n*ame}".data "Bob".data "bob".data = "{name}".data ∧
    sanitizeMessage (sanitizeMessage "{n*ame}".data "Bob".data "bob".data)
        "Bob".data "bob".data = "Bob".data ∧
    sanitizeMessage (sanitizeMessage "{n*ame}".data "Bob".data "bob".data)
        "Bob".data "bob".data
      ≠ sanitizeMessage "{n*ame}".data "Bob".data "bob".data :=
  ⟨by decide, by decide, by decide⟩

/-- Claim C7 (amended): the sanitizer is idempotent on every input whose
sanitized form contains no occurrence of the brace placeholder (`{name}` or
`{Name}`) — the sole pattern that can still fire on a sanitized text, since
brackets, angle brackets, markdown characters and whitespace runs are already
gone from any output. -/
theorem sanitize_idempotent_of_no_brace_placeholder (x name username : List Char)
    (h : hasMatch ph2Pats (sanitizeMessage x name username) = false) :
    sanitizeMessage (sanitizeMessage x name username) name username
      = sanitizeMessage x name username :=
  sanitize_fixedpoint name username (fun _ ha => sanitize_chars ha)
    (noWsPair_sanitize x name username) (sanitize_trim x name username) h

/-- Witness for the amended C7 theorem on a benign input. -/
theorem sanitize_idempotent_witness :
    hasMatch ph2Pats (sanitizeMessage "hi there".data "Bob".data "bob".data)
        = false ∧
    sanitizeMessage (sanitizeMessage "hi there".data "Bob".data "bob".data)
        "Bob".data "bob".data
      = sanitizeMessage "hi there".data "Bob".data "bob".data :=
  ⟨by decide,
   sanitize_idempotent_of_no_brace_placeholder "hi there".data "Bob".data
     "bob".data (by decide)⟩

/-- Claim C8: for every input text and every fallback display name and handle
(including ones containing such characters), the sanitized output contains
none of the characters star, backtick, underscore, greater-than, hash,
left bracket, right bracket, less-than. -/
theorem sanitize_no_special_chars (msg name username : List Char) (a : Char)
    (h : a ∈ sanitizeMessage msg name username) :
    a ≠ '*' ∧ a ≠ backtickChar ∧ a ≠ '_' ∧ a ≠ '>' ∧ a ≠ '#' ∧
      a ≠ '[' ∧ a ≠ ']' ∧ a ≠ '<' := by
  obtain ⟨hmd, hbr⟩ := sanitize_chars h
  refine ⟨?_, ?_, ?_, ?_, ?_, ?_, ?_, ?_⟩
  · rintro rfl; exact absurd hmd (by decide)
  · rintro rfl; exact absurd hmd (by decide)
  · rintro rfl; exact absurd hmd (by decide)
  · rintro rfl; exact absurd hmd (by decide)
  · rintro rfl; exact absurd hmd (by decide)
  · rintro rfl; exact absurd hbr (by decide)
  · rintro rfl; exact absurd hbr (by decide)
  · rintro rfl; exact absurd hbr (by decide)

/-- Witness for C8: the character `h` of a sanitized message, with an
adversarial fallback name full of special characters. -/
theorem sanitize_no_special_chars_witness :
    'h' ∈ sanitizeMessage "[Name] says hi".data "*`_>#[]<Bob".data "bob".data ∧
    ('h' ≠ '*' ∧ 'h' ≠ backtickChar ∧ 'h' ≠ '_' ∧ 'h' ≠ '>' ∧ 'h' ≠ '#' ∧
      'h' ≠ '[' ∧ 'h' ≠ ']' ∧ 'h' ≠ '<') :=
  ⟨by decide,
   sanitize_no_special_chars "[Name] says hi".data "*`_>#[]<Bob".data
     "bob".data 'h' (by decide)⟩
